import Mathlib

/-!
# Verification of the mempool, peer session, DAO and MPT components

This file gives a shallow embedding, in Lean 4, of the components of the
blockchain node that the specification describes: the transaction memory
pool, the peer session machine (handshake, keepalive, outbound queues),
the transaction storage of the data access layer, and the Merkle-Patricia
trie proof generation and verification.  Machine integers are modelled as
`Int`/`Nat`, Go maps as association lists with Go assignment semantics,
and Go slices as lists.  Theorems at the end settle the behavioural claims
about these components.
-/

/-! ## §1 Basic data: comparisons, inputs, transactions, pool items -/

/-- Three-way comparison of integers, the model of `Uint256.CompareTo` /
`Uint160.CompareTo` (which compare fixed-width byte strings and return
-1/0/1; byte-string order on fixed-width big-endian values coincides with
the numeric order of the values, so hashes are modelled as integers). -/
def intCmp (a b : Int) : Int := if a < b then -1 else if b < a then 1 else 0

/-- Modelled from the spec (§3): a transaction input is a reference to a
previous output and inputs are uniquely orderable (`Input.Cmp` orders them
by previous hash, then index — a total order with `Cmp = 0` iff equality —
so an input is modelled as a single integer, written `Int` throughout).
`inputCmp` is the model of `Input.Cmp`; only the sign of the Go result is
ever used. -/
def inputCmp (a b : Int) : Int := intCmp a b

/-- Modelled from the spec (§3): a transaction with its hash, sender,
fees, serialized size and inputs.  Fixed-point amounts are signed
integers (units of 10⁻⁸); hash identifiers are integers as in `intCmp`. -/
structure Transaction where
  hash : Int
  sender : Int
  sysFee : Int
  netFee : Int
  size : Int
  inputs : List Int
deriving DecidableEq

/-- Modelled from the spec (glossary): fee-per-byte is the network fee
divided by the serialized transaction length (Go `int64` division
truncates toward zero, hence `Int.tdiv`). -/
def Transaction.feePerByte (t : Transaction) : Int := t.netFee.tdiv t.size

/-- `item` represents a transaction in the memory pool
(source `part_000` lines 26-31). -/
structure item where
  txn : Transaction
  timeStamp : Nat
  isLowPrio : Bool
deriving DecidableEq

/-- `CompareTo` returns the difference between two items (source lines
64-92).  The Go nil-receiver guard is dropped: pooled items are never
nil.  `Fixed8.CompareTo` returns the signed difference of the amounts,
`Uint256.CompareTo` the -1/0/1 sign of the byte order. -/
def item.CompareTo (p otherP : item) : Int :=
  if !p.isLowPrio && otherP.isLowPrio then 1
  else if p.isLowPrio && !otherP.isLowPrio then -1
  else if p.txn.feePerByte - otherP.txn.feePerByte ≠ 0 then
    p.txn.feePerByte - otherP.txn.feePerByte
  else if p.txn.netFee - otherP.txn.netFee ≠ 0 then
    p.txn.netFee - otherP.txn.netFee
  else intCmp otherP.txn.hash p.txn.hash

/-- Priority class as a number: normal (1) outranks low (0). -/
def prioRank (p : item) : Int := if p.isLowPrio then 0 else 1

/-- Characterization of a strictly positive `CompareTo`: the §4.1
lexicographic order (priority class, fee per byte, network fee, and the
*smaller* hash winning the tie). -/
theorem CompareTo_pos_iff (p q : item) :
    0 < p.CompareTo q ↔
      (prioRank q < prioRank p ∨
        (prioRank p = prioRank q ∧
          (q.txn.feePerByte < p.txn.feePerByte ∨
            (p.txn.feePerByte = q.txn.feePerByte ∧
              (q.txn.netFee < p.txn.netFee ∨
                (p.txn.netFee = q.txn.netFee ∧ p.txn.hash < q.txn.hash)))))) := by
  cases hp : p.isLowPrio <;> cases hq : q.isLowPrio <;>
    simp [item.CompareTo, prioRank, intCmp, hp, hq] <;>
    split_ifs <;> simp_all <;> omega

/-- `CompareTo` vanishes exactly when every component of the §4.1 key
agrees (in particular the transaction hashes are equal). -/
theorem CompareTo_eq_zero_iff (p q : item) :
    p.CompareTo q = 0 ↔
      (prioRank p = prioRank q ∧ p.txn.feePerByte = q.txn.feePerByte ∧
        p.txn.netFee = q.txn.netFee ∧ p.txn.hash = q.txn.hash) := by
  cases hp : p.isLowPrio <;> cases hq : q.isLowPrio <;>
    simp [item.CompareTo, prioRank, intCmp, hp, hq] <;>
    split_ifs <;> simp_all <;> omega

theorem CompareTo_self (p : item) : p.CompareTo p = 0 := by
  rw [CompareTo_eq_zero_iff]; exact ⟨rfl, rfl, rfl, rfl⟩

/-- Antisymmetry of the item order. -/
theorem CompareTo_pos_asymm (p q : item) :
    0 < p.CompareTo q → ¬ 0 < q.CompareTo p := by
  rw [CompareTo_pos_iff, CompareTo_pos_iff]; omega

/-- Trichotomy: one of the two items outranks the other unless the whole
§4.1 key (hash included) agrees. -/
theorem CompareTo_trichotomy (p q : item) :
    0 < p.CompareTo q ∨ 0 < q.CompareTo p ∨ p.CompareTo q = 0 := by
  rw [CompareTo_pos_iff, CompareTo_pos_iff, CompareTo_eq_zero_iff]; omega

/-- Transitivity of the item order. -/
theorem CompareTo_pos_trans (p q r : item) :
    0 < p.CompareTo q → 0 < q.CompareTo r → 0 < p.CompareTo r := by
  rw [CompareTo_pos_iff, CompareTo_pos_iff, CompareTo_pos_iff]; omega

/-- A non-positive comparison against an item with a different hash is
strictly negative, i.e. the other item strictly outranks this one. -/
theorem CompareTo_flip (p q : item) (hne : p.txn.hash ≠ q.txn.hash)
    (h : ¬ 0 < p.CompareTo q) : 0 < q.CompareTo p := by
  rcases CompareTo_trichotomy p q with h1 | h1 | h1
  · exact absurd h1 h
  · exact h1
  · exact absurd (CompareTo_eq_zero_iff p q |>.mp h1).2.2.2 hne

/-! ## §2 Go `sort.Search` (binary search) -/

/-- The loop of Go `sort.Search`.  Go iterates while `i < j`; every
iteration strictly shrinks `j - i`, so running the loop with any fuel of
at least the initial width computes the fixed point (the fuel only
bounds the iteration count; structural recursion keeps the function
kernel-computable). -/
def searchLoop (f : Nat → Bool) : Nat → Nat → Nat → Nat
  | 0, i, _ => i
  | fuel + 1, i, j =>
    if i < j then
      let m := (i + j) / 2
      if f m then searchLoop f fuel i m else searchLoop f fuel (m + 1) j
    else i

/-- Go `sort.Search(n, f)`: binary search for the smallest index in
`[0, n)` at which `f` holds, under the assumption that `f` is
false-then-true; returns `n` when `f` never holds. -/
def sortSearch (n : Nat) (f : Nat → Bool) : Nat := searchLoop f n 0 n

theorem searchLoop_bounds (f : Nat → Bool) :
    ∀ fuel i j, i ≤ j → i ≤ searchLoop f fuel i j ∧ searchLoop f fuel i j ≤ j := by
  intro fuel
  induction fuel with
  | zero => intro i j h; exact ⟨le_refl i, h⟩
  | succ fuel ih =>
    intro i j h
    simp only [searchLoop]
    split
    · next hij =>
      split
      · have := ih i ((i + j) / 2) (by omega)
        omega
      · have := ih ((i + j) / 2 + 1) j (by omega)
        omega
    · exact ⟨le_refl i, h⟩

/-- With enough fuel, if the loop stops strictly inside the interval then
the predicate holds at the result (no monotonicity needed). -/
theorem searchLoop_found (f : Nat → Bool) :
    ∀ fuel i j, j - i ≤ fuel → searchLoop f fuel i j < j →
      f (searchLoop f fuel i j) = true := by
  intro fuel
  induction fuel with
  | zero =>
    intro i j hf hlt
    simp only [searchLoop] at hlt
    omega
  | succ fuel ih =>
    intro i j hf hlt
    by_cases hij : i < j
    · rcases hfm : f ((i + j) / 2) with _ | _
      · simp only [searchLoop, hij, if_true, hfm, Bool.false_eq_true,
          if_false] at hlt ⊢
        exact ih ((i + j) / 2 + 1) j (by omega) hlt
      · simp only [searchLoop, hij, if_true, hfm] at hlt ⊢
        by_cases hm : searchLoop f fuel i ((i + j) / 2) < (i + j) / 2
        · exact ih i ((i + j) / 2) (by omega) hm
        · have hb := searchLoop_bounds f fuel i ((i + j) / 2) (by omega)
          have heq : searchLoop f fuel i ((i + j) / 2) = (i + j) / 2 := by
            omega
          rw [heq]; exact hfm
    · have hstop : searchLoop f (fuel + 1) i j = i := by
        simp only [searchLoop, if_neg hij]
      omega

/-- With enough fuel, every index below the result fails the predicate,
provided the predicate is monotone (false-then-true) on the interval. -/
theorem searchLoop_not_below (f : Nat → Bool) :
    ∀ fuel i j, j - i ≤ fuel →
      (∀ k l, i ≤ k → k ≤ l → l < j → f k = true → f l = true) →
      ∀ k, i ≤ k → k < searchLoop f fuel i j → f k = false := by
  intro fuel
  induction fuel with
  | zero =>
    intro i j hf _ k hk hlt
    simp only [searchLoop] at hlt
    omega
  | succ fuel ih =>
    intro i j hf hmono k hk hlt
    by_cases hij : i < j
    · rcases hfm : f ((i + j) / 2) with _ | _
      · simp only [searchLoop, hij, if_true, hfm, Bool.false_eq_true,
          if_false] at hlt
        by_cases hkm : (i + j) / 2 + 1 ≤ k
        · exact ih ((i + j) / 2 + 1) j (by omega)
            (fun a b ha hab hb => hmono a b (by omega) hab hb) k hkm hlt
        · rcases hfk : f k with _ | _
          · rfl
          · exact absurd (hmono k ((i + j) / 2) hk (by omega) (by omega) hfk)
              (by simp [hfm])
      · simp only [searchLoop, hij, if_true, hfm] at hlt
        exact ih i ((i + j) / 2) (by omega)
          (fun a b ha hab hb => hmono a b ha hab (by omega)) k hk hlt
    · have hstop : searchLoop f (fuel + 1) i j = i := by
        simp only [searchLoop, if_neg hij]
      omega

/-- Summary specification of `sortSearch` for a monotone predicate. -/
theorem sortSearch_spec (n : Nat) (f : Nat → Bool)
    (hmono : ∀ k l, k ≤ l → l < n → f k = true → f l = true) :
    sortSearch n f ≤ n ∧
    (∀ k, k < sortSearch n f → f k = false) ∧
    (sortSearch n f < n → f (sortSearch n f) = true) := by
  refine ⟨(searchLoop_bounds f n 0 n (Nat.zero_le n)).2, ?_, ?_⟩
  · intro k hk
    exact searchLoop_not_below f n 0 n (by omega)
      (fun a b _ hab hb => hmono a b hab hb) k (Nat.zero_le k) hk
  · intro h
    exact searchLoop_found f n 0 n (by omega) h

/-! ## §3 Go maps as association lists -/

/-- Go map read (first-match lookup; keys are unique in a Go map and the
operations below preserve key uniqueness). -/
def alookup {β : Type} (m : List (Int × β)) (k : Int) : Option β :=
  match m with
  | [] => none
  | (k', v) :: rest => if k' = k then some v else alookup rest k

/-- Go map assignment `m[k] = v`: overwrite the existing entry or add a
new one. -/
def aset {β : Type} (m : List (Int × β)) (k : Int) (v : β) : List (Int × β) :=
  match m with
  | [] => [(k, v)]
  | (k', v') :: rest => if k' = k then (k, v) :: rest else (k', v') :: aset rest k v

/-- Go map `delete(m, k)`. -/
def adel {β : Type} (m : List (Int × β)) (k : Int) : List (Int × β) :=
  match m with
  | [] => []
  | (k', v') :: rest => if k' = k then rest else (k', v') :: adel rest k

theorem alookup_eq_none_of_not_mem {β : Type} (m : List (Int × β)) (k : Int)
    (h : k ∉ m.map Prod.fst) : alookup m k = none := by
  induction m with
  | nil => rfl
  | cons kv rest ih =>
    obtain ⟨k', v'⟩ := kv
    simp only [List.map_cons, List.mem_cons, not_or] at h
    have hne : ¬ (k' = k) := fun hh => h.1 hh.symm
    simp only [alookup, if_neg hne]
    exact ih h.2

theorem not_mem_keys_of_alookup_none {β : Type} (m : List (Int × β)) (k : Int)
    (h : alookup m k = none) : k ∉ m.map Prod.fst := by
  intro hmem
  induction m with
  | nil => simp at hmem
  | cons kv rest ih =>
    obtain ⟨k', v'⟩ := kv
    simp only [alookup] at h
    by_cases hk : k' = k
    · rw [if_pos hk] at h
      simp at h
    · rw [if_neg hk] at h
      simp only [List.map_cons, List.mem_cons] at hmem
      rcases hmem with rfl | hmem
      · exact hk rfl
      · exact ih h hmem

theorem alookup_aset_self {β : Type} (m : List (Int × β)) (k : Int) (v : β) :
    alookup (aset m k v) k = some v := by
  induction m with
  | nil => simp [aset, alookup]
  | cons kv rest ih =>
    obtain ⟨k', v'⟩ := kv
    by_cases h : k' = k
    · simp [aset, h, alookup]
    · simp [aset, h, alookup, ih]

theorem alookup_aset_ne {β : Type} (m : List (Int × β)) (k k2 : Int) (v : β)
    (hne : k2 ≠ k) : alookup (aset m k v) k2 = alookup m k2 := by
  have hne2 : ¬ (k = k2) := fun hh => hne hh.symm
  induction m with
  | nil => simp [aset, alookup, hne2]
  | cons kv rest ih =>
    obtain ⟨k', v'⟩ := kv
    by_cases h : k' = k
    · subst h
      simp [aset, alookup, hne2]
    · simp [aset, alookup, h, ih]

theorem alookup_adel_ne {β : Type} (m : List (Int × β)) (k k2 : Int)
    (hne : k2 ≠ k) : alookup (adel m k) k2 = alookup m k2 := by
  induction m with
  | nil => simp [adel]
  | cons kv rest ih =>
    obtain ⟨k', v'⟩ := kv
    by_cases h : k' = k
    · subst h
      have hne2 : ¬ (k' = k2) := fun hh => hne hh.symm
      simp [adel, alookup, hne2]
    · simp [adel, alookup, h, ih]

theorem alookup_adel_self {β : Type} (m : List (Int × β)) (k : Int)
    (hkeys : (m.map Prod.fst).Nodup) : alookup (adel m k) k = none := by
  induction m with
  | nil => simp [adel, alookup]
  | cons kv rest ih =>
    obtain ⟨k', v'⟩ := kv
    simp only [List.map_cons, List.nodup_cons] at hkeys
    by_cases h : k' = k
    · subst h
      simp only [adel, if_pos rfl]
      exact alookup_eq_none_of_not_mem rest k' hkeys.1
    · simp [adel, alookup, h, ih hkeys.2]

theorem keys_aset {β : Type} (m : List (Int × β)) (k : Int) (v : β)
    (h : alookup m k = none) :
    (aset m k v).map Prod.fst = m.map Prod.fst ++ [k] := by
  induction m with
  | nil => simp [aset]
  | cons kv rest ih =>
    obtain ⟨k', v'⟩ := kv
    simp only [alookup] at h
    by_cases hk : k' = k
    · rw [if_pos hk] at h
      simp at h
    · rw [if_neg hk] at h
      simp [aset, hk, ih h]

theorem keys_adel_sublist {β : Type} (m : List (Int × β)) (k : Int) :
    List.Sublist ((adel m k).map Prod.fst) (m.map Prod.fst) := by
  induction m with
  | nil => simp [adel]
  | cons kv rest ih =>
    obtain ⟨k', v'⟩ := kv
    by_cases h : k' = k
    · simp only [adel, if_pos h, List.map_cons]
      exact List.sublist_cons_self k' (rest.map Prod.fst)
    · simp only [adel, if_neg h, List.map_cons]
      exact ih.cons_cons k'

theorem keys_nodup_aset {β : Type} (m : List (Int × β)) (k : Int) (v : β)
    (h : alookup m k = none) (hkeys : (m.map Prod.fst).Nodup) :
    ((aset m k v).map Prod.fst).Nodup := by
  rw [keys_aset m k v h]
  refine List.Nodup.append hkeys (List.nodup_singleton k) ?_
  intro a ha hb
  simp only [List.mem_singleton] at hb
  subst hb
  exact not_mem_keys_of_alookup_none m a h ha

theorem keys_nodup_adel {β : Type} (m : List (Int × β)) (k : Int)
    (hkeys : (m.map Prod.fst).Nodup) : ((adel m k).map Prod.fst).Nodup :=
  hkeys.sublist (keys_adel_sublist m k)

/-- A positive lookup pins the key to be among the stored keys. -/
theorem mem_keys_of_alookup {β : Type} (m : List (Int × β)) (k : Int) (v : β)
    (h : alookup m k = some v) : k ∈ m.map Prod.fst := by
  induction m with
  | nil => simp [alookup] at h
  | cons kv rest ih =>
    obtain ⟨k', v'⟩ := kv
    simp only [alookup] at h
    by_cases hk : k' = k
    · subst hk
      simp
    · rw [if_neg hk] at h
      simpa using Or.inr (ih h)

/-! ## §4 Sorted input slice operations (source lines 124-150, 336-346) -/

theorem inputCmp_nonpos (a b : Int) : inputCmp a b ≤ 0 ↔ a ≤ b := by
  unfold inputCmp intCmp
  split_ifs <;> omega

theorem inputCmp_eq_zero (a b : Int) : inputCmp a b = 0 ↔ a = b := by
  unfold inputCmp intCmp
  split_ifs <;> simp_all <;> omega

/-- `findIndexForInput` finds an index in a sorted Input slice that is
appropriate to place this input into, or which contains an identical
input (source lines 124-129). -/
def findIndexForInput (slice : List Int) (input : Int) : Nat :=
  sortSearch slice.length (fun n => decide (inputCmp input (slice.getD n 0) ≤ 0))

/-- Characterization of `findIndexForInput` on a sorted slice: it is the
least index whose element is `≥ input` (or the length when there is no
such index). -/
theorem findIndexForInput_spec (slice : List Int) (input : Int)
    (hsorted : slice.Pairwise (· ≤ ·)) :
    findIndexForInput slice input ≤ slice.length ∧
    (∀ k, k < findIndexForInput slice input → slice.getD k 0 < input) ∧
    (findIndexForInput slice input < slice.length →
      input ≤ slice.getD (findIndexForInput slice input) 0) := by
  unfold findIndexForInput
  have hidx := List.pairwise_iff_getElem.mp hsorted
  have hmono : ∀ k l, k ≤ l → l < slice.length →
      (fun n => decide (inputCmp input (slice.getD n 0) ≤ 0)) k = true →
      (fun n => decide (inputCmp input (slice.getD n 0) ≤ 0)) l = true := by
    intro k l hkl hl hk
    simp only [decide_eq_true_eq, inputCmp_nonpos] at hk ⊢
    rcases Nat.eq_or_lt_of_le hkl with rfl | hkl2
    · exact hk
    · have h1 : slice.getD k 0 ≤ slice.getD l 0 := by
        rw [List.getD_eq_getElem slice 0 (by omega), List.getD_eq_getElem slice 0 hl]
        exact hidx k l (by omega) hl hkl2
      exact le_trans hk h1
  obtain ⟨h1, h2, h3⟩ := sortSearch_spec slice.length _ hmono
  set r := sortSearch slice.length
    (fun n => decide (inputCmp input (slice.getD n 0) ≤ 0)) with hrdef
  refine ⟨h1, ?_, ?_⟩
  · intro k hk
    have hfk := h2 k hk
    simp only [decide_eq_false_iff_not, inputCmp_nonpos] at hfk
    omega
  · intro hlt
    have hfk := h3 hlt
    simp only [decide_eq_true_eq, inputCmp_nonpos] at hfk
    exact hfk

/-- `pushInputToSortedSlice` pushes a new input into the given slice
(source lines 131-139); the Go append-then-`copy` shift is expressed with
take/drop (its value semantics). -/
def pushInputToSortedSlice (slice : List Int) (input : Int) : List Int :=
  if findIndexForInput slice input ≠ (slice ++ [input]).length - 1 then
    (slice ++ [input]).take (findIndexForInput slice input) ++
      input :: (slice ++ [input]).dropLast.drop (findIndexForInput slice input)
  else slice ++ [input]

/-- The push is an insertion at the found index. -/
theorem pushInput_eq (slice : List Int) (input : Int)
    (hn : findIndexForInput slice input ≤ slice.length) :
    pushInputToSortedSlice slice input =
      slice.take (findIndexForInput slice input) ++
        input :: slice.drop (findIndexForInput slice input) := by
  unfold pushInputToSortedSlice
  have hL : (slice ++ [input]).length - 1 = slice.length := by simp
  by_cases h : findIndexForInput slice input = slice.length
  · have hcond : ¬ (findIndexForInput slice input ≠ (slice ++ [input]).length - 1) := by
      rw [hL]
      exact fun hh => hh h
    rw [if_neg hcond, h, List.take_length, List.drop_length]
  · have hcond : findIndexForInput slice input ≠ (slice ++ [input]).length - 1 := by
      rw [hL]
      exact h
    rw [if_pos hcond, List.dropLast_concat,
      List.take_append_of_le_length (by omega)]

/-- The push adds exactly one occurrence of the input (multiset view). -/
theorem pushInput_perm (slice : List Int) (input : Int)
    (hn : findIndexForInput slice input ≤ slice.length) :
    List.Perm (pushInputToSortedSlice slice input) (input :: slice) := by
  rw [pushInput_eq slice input hn]
  have h1 := @List.perm_middle Int input
    (slice.take (findIndexForInput slice input))
    (slice.drop (findIndexForInput slice input))
  rw [List.take_append_drop] at h1
  exact h1

/-- Generic insertion lemma: inserting an element at a position that
dominates everything before it and is dominated by everything after it
keeps a `Pairwise` relation. -/
theorem pairwise_insert_at {α : Type} (R : α → α → Prop) (l : List α) (x : α)
    (n : Nat) (hn : n ≤ l.length) (hsort : l.Pairwise R)
    (hbefore : ∀ k, k < n → ∀ (hk : k < l.length), R (l.get ⟨k, hk⟩) x)
    (hafter : ∀ k, n ≤ k → ∀ (hk : k < l.length), R x (l.get ⟨k, hk⟩)) :
    (l.take n ++ x :: l.drop n).Pairwise R := by
  rw [List.pairwise_append]
  refine ⟨hsort.sublist (List.take_sublist n l), ?_, ?_⟩
  · rw [List.pairwise_cons]
    constructor
    · intro b hb
      rw [List.mem_iff_get] at hb
      obtain ⟨⟨i, hi⟩, rfl⟩ := hb
      have h1 : (l.drop n).get ⟨i, hi⟩ = l.get ⟨n + i, by
          have := l.length_drop n; omega⟩ := by
        simp [List.get_eq_getElem, List.getElem_drop]
      rw [h1]
      exact hafter (n + i) (by omega) _
    · exact hsort.sublist (List.drop_sublist n l)
  · intro a ha b hb
    rw [List.mem_iff_get] at ha
    obtain ⟨⟨i, hi⟩, rfl⟩ := ha
    have hilen : i < l.length := by
      have := l.length_take n
      omega
    have hin : i < n := by
      have := l.length_take n
      omega
    have hitake : (l.take n).get ⟨i, hi⟩ = l.get ⟨i, hilen⟩ := by
      simp [List.get_eq_getElem, List.getElem_take]
    rcases List.mem_cons.mp hb with rfl | hb2
    · rw [hitake]
      exact hbefore i hin hilen
    · rw [List.mem_iff_get] at hb2
      obtain ⟨⟨j, hj⟩, rfl⟩ := hb2
      have h1 : (l.drop n).get ⟨j, hj⟩ = l.get ⟨n + j, by
          have := l.length_drop n; omega⟩ := by
        simp [List.get_eq_getElem, List.getElem_drop]
      rw [hitake, h1]
      exact (List.pairwise_iff_getElem.mp hsort) i (n + j)
        hilen (by have := l.length_drop n; omega) (by omega)

/-- Pushing into a sorted slice keeps it sorted. -/
theorem pushInput_sorted (slice : List Int) (input : Int)
    (hsorted : slice.Pairwise (· ≤ ·)) :
    (pushInputToSortedSlice slice input).Pairwise (· ≤ ·) := by
  obtain ⟨h1, h2, h3⟩ := findIndexForInput_spec slice input hsorted
  rw [pushInput_eq slice input h1]
  refine pairwise_insert_at _ slice input _ h1 hsorted ?_ ?_
  · intro k hk hklen
    have hlt := h2 k hk
    rw [List.getD_eq_getElem slice 0 hklen] at hlt
    simpa using le_of_lt hlt
  · intro k hk hklen
    have hfound : input ≤ slice.getD (findIndexForInput slice input) 0 :=
      h3 (by omega)
    rw [List.getD_eq_getElem slice 0
      (show findIndexForInput slice input < slice.length by omega)] at hfound
    rcases Nat.eq_or_lt_of_le hk with heq | hk2
    · subst heq
      simpa using hfound
    · have hle := (List.pairwise_iff_getElem.mp hsorted)
        (findIndexForInput slice input) k (by omega) hklen hk2
      simp only [List.get_eq_getElem]
      exact le_trans hfound hle

/-- `dropInputFromSortedSlice` removes the given input from the slice if
present (source lines 141-150); the Go `copy`-shift-truncate is
`eraseIdx`, and the short-circuit `||` is a nested conditional. -/
def dropInputFromSortedSlice (slice : List Int) (input : Int) : List Int :=
  if findIndexForInput slice input = slice.length then slice
  else if input ≠ slice.getD (findIndexForInput slice input) 0 then slice
  else slice.eraseIdx (findIndexForInput slice input)

/-- On a sorted slice, the found index of a present input holds exactly
that input. -/
theorem findIndexForInput_of_mem (slice : List Int) (input : Int)
    (hsorted : slice.Pairwise (· ≤ ·)) (hmem : input ∈ slice) :
    findIndexForInput slice input < slice.length ∧
      slice.getD (findIndexForInput slice input) 0 = input := by
  obtain ⟨h1, h2, h3⟩ := findIndexForInput_spec slice input hsorted
  obtain ⟨idx, hidx, hval⟩ := List.mem_iff_getElem.mp hmem
  have hge : findIndexForInput slice input ≤ idx := by
    by_contra hcon
    have := h2 idx (by omega)
    rw [List.getD_eq_getElem slice 0 hidx, hval] at this
    omega
  have hlt : findIndexForInput slice input < slice.length := by omega
  refine ⟨hlt, ?_⟩
  have hval2 : slice.getD idx 0 = input := by
    rw [List.getD_eq_getElem slice 0 hidx]
    exact hval
  have hle1 : input ≤ slice.getD (findIndexForInput slice input) 0 := h3 hlt
  have hle2 : slice.getD (findIndexForInput slice input) 0 ≤ input := by
    rcases Nat.eq_or_lt_of_le hge with heq | hlt2
    · rw [heq, hval2]
    · have hp : slice.getD (findIndexForInput slice input) 0 ≤ slice.getD idx 0 := by
        rw [List.getD_eq_getElem slice 0 hlt, List.getD_eq_getElem slice 0 hidx]
        exact (List.pairwise_iff_getElem.mp hsorted) _ idx hlt hidx hlt2
      omega
  omega

/-- On a sorted slice the drop removes exactly one occurrence of the
input when present (and nothing otherwise): it is `List.erase` up to
permutation. -/
theorem dropInput_perm (slice : List Int) (input : Int)
    (hsorted : slice.Pairwise (· ≤ ·)) :
    List.Perm (dropInputFromSortedSlice slice input) (slice.erase input) := by
  unfold dropInputFromSortedSlice
  by_cases hmem : input ∈ slice
  · obtain ⟨hlt, hval⟩ := findIndexForInput_of_mem slice input hsorted hmem
    rw [if_neg (by omega), if_neg (by rw [hval]; exact fun h => h rfl)]
    have hsplit : slice.take (findIndexForInput slice input) ++
        input :: slice.drop (findIndexForInput slice input + 1) = slice := by
      conv_rhs => rw [← List.take_append_drop (findIndexForInput slice input) slice]
      congr 1
      rw [← List.getElem_cons_drop slice (findIndexForInput slice input) hlt]
      rw [List.getD_eq_getElem slice 0 hlt] at hval
      rw [hval]
    have herase : List.Perm slice
        (input :: slice.eraseIdx (findIndexForInput slice input)) := by
      conv_lhs => rw [← hsplit]
      rw [List.eraseIdx_eq_take_drop_succ]
      exact List.perm_middle
    have herase2 : List.Perm slice (input :: slice.erase input) :=
      List.perm_cons_erase hmem
    exact (List.perm_cons input).mp (herase.symm.trans herase2)
  · rw [List.erase_of_not_mem hmem]
    by_cases hlen : findIndexForInput slice input = slice.length
    · rw [if_pos hlen]
    · have hval : input ≠ slice.getD (findIndexForInput slice input) 0 := by
        intro heq
        apply hmem
        obtain ⟨h1, h2, h3⟩ := findIndexForInput_spec slice input hsorted
        have hlt : findIndexForInput slice input < slice.length := by omega
        rw [heq, List.getD_eq_getElem slice 0 hlt]
        exact List.getElem_mem hlt
      rw [if_neg hlen, if_pos hval]

/-- Dropping keeps the slice sorted. -/
theorem dropInput_sorted (slice : List Int) (input : Int)
    (hsorted : slice.Pairwise (· ≤ ·)) :
    (dropInputFromSortedSlice slice input).Pairwise (· ≤ ·) := by
  unfold dropInputFromSortedSlice
  split
  · exact hsorted
  · split
    · exact hsorted
    · exact hsorted.sublist
        (List.eraseIdx_sublist slice (findIndexForInput slice input))

/-- `areInputsInPool` tries to find the inputs in a given sorted pool and
returns true if it finds any (source lines 336-346). -/
def areInputsInPool (inputs : List Int) (pool : List Int) : Bool :=
  inputs.any fun inp =>
    decide (findIndexForInput pool inp < pool.length) &&
      (pool.getD (findIndexForInput pool inp) 0 == inp)

/-- On a sorted pool, `areInputsInPool` decides overlap. -/
theorem areInputsInPool_iff (inputs : List Int) (pool : List Int)
    (hsorted : pool.Pairwise (· ≤ ·)) :
    areInputsInPool inputs pool = true ↔ ∃ i ∈ inputs, i ∈ pool := by
  unfold areInputsInPool
  rw [List.any_eq_true]
  constructor
  · rintro ⟨i, hi, hfound⟩
    simp only [Bool.and_eq_true, decide_eq_true_eq, beq_iff_eq] at hfound
    refine ⟨i, hi, ?_⟩
    have hm := List.getElem_mem hfound.1
    rw [← List.getD_eq_getElem pool 0 hfound.1, hfound.2] at hm
    exact hm
  · rintro ⟨i, hi, hmem⟩
    obtain ⟨hlt, hval⟩ := findIndexForInput_of_mem pool i hsorted hmem
    refine ⟨i, hi, ?_⟩
    simp only [Bool.and_eq_true, decide_eq_true_eq, beq_iff_eq]
    exact ⟨hlt, hval⟩

/-! ## §5 The memory pool and its operations (source lines 13-366) -/

/-- The three sentinel errors of `Add` (source lines 13-24). -/
inductive AddErr
  | conflict
  | dup
  | oom
deriving DecidableEq

/-- Sender balance snapshot plus accumulated pooled fees
(source lines 42-47). -/
structure utilityBalanceAndFees where
  balance : Int
  feeSum : Int
deriving DecidableEq

/-- Modelled from the spec (§3-4): the `Feer`/fee-policy collaborator
that supplies sender balances and the low-priority threshold test. -/
structure Feer where
  GetUtilityTokenBalance : Int → Int
  IsLowPriority : Int → Bool

/-- The memory pool state (source lines 49-58); Go maps are association
lists, the lock is irrelevant in the sequential embedding, and the
capacity is a natural number (callers construct pools with non-negative
capacities). -/
structure Pool where
  verifiedMap : List (Int × item)
  verifiedTxes : List item
  inputs : List Int
  fees : List (Int × utilityBalanceAndFees)
  capacity : Nat
deriving DecidableEq

/-- `NewMemPool` returns a new Pool struct (source lines 299-307). -/
def NewMemPool (capacity : Nat) : Pool :=
  { verifiedMap := []
    verifiedTxes := []
    inputs := []
    fees := []
    capacity := capacity }

/-- `containsKey` checks if a transaction hash is in the pool
(source lines 106-121; the lock-free inner version). -/
def Pool.containsKey (mp : Pool) (h : Int) : Bool :=
  (alookup mp.verifiedMap h).isSome

/-- `checkBalanceAndUpdate` on the fee map: returns true when the sender
has enough balance, and stores the sender's balance snapshot in the map
when the sender was not seen before (source lines 162-175). -/
def checkBalanceAndUpdateF (fees : List (Int × utilityBalanceAndFees))
    (tx : Transaction) (feer : Feer) :
    List (Int × utilityBalanceAndFees) × Bool :=
  match alookup fees tx.sender with
  | some senderFee =>
    (fees, !decide (senderFee.balance < senderFee.feeSum + tx.sysFee + tx.netFee))
  | none =>
    let senderFee : utilityBalanceAndFees :=
      { balance := feer.GetUtilityTokenBalance tx.sender, feeSum := 0 }
    (aset fees tx.sender senderFee,
      !decide (senderFee.balance < senderFee.feeSum + tx.sysFee + tx.netFee))

/-- `addSendersFee` adds the transaction's system and network fee to the
sender's accumulated total (source lines 177-182); an absent entry reads
as the Go zero value. -/
def addSendersFeeF (fees : List (Int × utilityBalanceAndFees))
    (tx : Transaction) : List (Int × utilityBalanceAndFees) :=
  let senderFee := (alookup fees tx.sender).getD { balance := 0, feeSum := 0 }
  aset fees tx.sender
    { senderFee with feeSum := senderFee.feeSum + tx.sysFee + tx.netFee }

/-- `tryAddSendersFee` (source lines 152-160). -/
def tryAddSendersFeeF (fees : List (Int × utilityBalanceAndFees))
    (tx : Transaction) (feer : Feer) :
    List (Int × utilityBalanceAndFees) × Bool :=
  let res := checkBalanceAndUpdateF fees tx feer
  if res.2 then (addSendersFeeF res.1 tx, true) else (res.1, false)

/-- `checkTxConflicts` (source lines 348-357).  It returns the updated
pool because `checkBalanceAndUpdate` can store a balance snapshot. -/
def Pool.checkTxConflicts (mp : Pool) (tx : Transaction) (fee : Feer) :
    Pool × Bool :=
  if areInputsInPool tx.inputs mp.inputs then (mp, false)
  else
    let res := checkBalanceAndUpdateF mp.fees tx fee
    ({ mp with fees := res.1 }, res.2)

/-- `Verify` (source lines 359-366): the read-locked entry point of
`checkTxConflicts`. -/
def Pool.Verify (mp : Pool) (tx : Transaction) (feer : Feer) : Pool × Bool :=
  mp.checkTxConflicts tx feer

/-- Tail of `Add` after the list slot has been prepared (source lines
226-239): rotate the new item (currently in the last slot) to position
`n` (the Go `copy`-shift, written as take/drop), account the sender fee
and merge the transaction inputs into the sorted input slice. -/
def Pool.addFinish (mp : Pool) (pItem : item) (n : Nat) :
    Pool × Option AddErr :=
  let txes :=
    if n ≠ mp.verifiedTxes.length - 1 then
      mp.verifiedTxes.take n ++ pItem :: mp.verifiedTxes.dropLast.drop n
    else mp.verifiedTxes
  ({ mp with
      verifiedTxes := txes
      fees := addSendersFeeF mp.fees pItem.txn
      inputs := pItem.txn.inputs.foldl
        (fun acc inp => pushInputToSortedSlice acc inp) mp.inputs }, none)

/-- `Add` tries to add a given transaction to the pool
(source lines 184-241).  `now` stands for `time.Now()`. -/
def Pool.Add (mp0 : Pool) (t : Transaction) (fee : Feer) (now : Nat) :
    Pool × Option AddErr :=
  let pItem : item :=
    { txn := t, timeStamp := now, isLowPrio := fee.IsLowPriority t.netFee }
  let conf := mp0.checkTxConflicts t fee
  let mp1 := conf.1
  if conf.2 = false then (mp1, some AddErr.conflict)
  else if mp1.containsKey t.hash then (mp1, some AddErr.dup)
  else
    let mp2 := { mp1 with verifiedMap := aset mp1.verifiedMap t.hash pItem }
    let n := sortSearch mp2.verifiedTxes.length
      (fun k => decide (0 < pItem.CompareTo (mp2.verifiedTxes.getD k pItem)))
    if mp2.verifiedTxes.length = mp2.capacity then
      if n = mp2.verifiedTxes.length then (mp2, some AddErr.oom)
      else
        -- Ditch the last one.
        let unlucky := mp2.verifiedTxes.getLastD pItem
        Pool.addFinish { mp2 with
          verifiedMap := adel mp2.verifiedMap unlucky.txn.hash
          verifiedTxes := mp2.verifiedTxes.dropLast ++ [pItem] } pItem n
    else
      Pool.addFinish { mp2 with verifiedTxes := mp2.verifiedTxes ++ [pItem] }
        pItem n

/-- The `for num = range` loop of `Remove` (source lines 250-254): the
index of the first item carrying the hash; a full pass without a break
leaves `num` at the last index (`len-1`), and an empty list leaves the
stale `num = 0`. -/
def rangeBreakIdx (hash : Int) : List item → Nat
  | [] => 0
  | [_] => 0
  | x :: y :: more =>
    if x.txn.hash = hash then 0 else rangeBreakIdx hash (y :: more) + 1

/-- `Remove` removes an item from the mempool if it exists there
(source lines 243-269).  Go then distinguishes `num < len-1` (splice) and
`num = len-1` (truncate); both equal `eraseIdx num`, and for the empty
list Go's stale `num = 0` fails both tests, which `eraseIdx 0 [] = []`
also models. -/
def Pool.Remove (mp : Pool) (hash : Int) : Pool :=
  match alookup mp.verifiedMap hash with
  | none => mp
  | some it =>
    let num := rangeBreakIdx hash mp.verifiedTxes
    let senderFee := (alookup mp.fees it.txn.sender).getD { balance := 0, feeSum := 0 }
    { mp with
      verifiedMap := adel mp.verifiedMap hash
      verifiedTxes := mp.verifiedTxes.eraseIdx num
      fees := aset mp.fees it.txn.sender
        { senderFee with
          feeSum := senderFee.feeSum - (it.txn.sysFee + it.txn.netFee) }
      inputs := it.txn.inputs.foldl
        (fun acc inp => dropInputFromSortedSlice acc inp) mp.inputs }

/-- Model of `sort.Slice(newInputs, Cmp < 0)` in `RemoveStale`.  Equal
inputs are identical values, so all sorted permutations coincide and
merge sort is an exact model of the (unstable) Go sort. -/
def sortInputs (l : List Int) : List Int := l.mergeSort (fun a b => decide (a ≤ b))

/-- One iteration of the `RemoveStale` loop (source lines 281-290),
acting on the accumulator (kept items, rebuilt inputs, fee map,
verified map). -/
def removeStaleStep (isOK : Transaction → Bool) (feer : Feer)
    (acc : List item × List Int ×
      List (Int × utilityBalanceAndFees) × List (Int × item))
    (itm : item) :
    List item × List Int ×
      List (Int × utilityBalanceAndFees) × List (Int × item) :=
  match acc with
  | (kept, nin, fs, m) =>
    if isOK itm.txn then
      let res := tryAddSendersFeeF fs itm.txn feer
      if res.2 then (kept ++ [itm], nin ++ itm.txn.inputs, res.1, m)
      else (kept, nin, res.1, adel m itm.txn.hash)
    else (kept, nin, fs, adel m itm.txn.hash)

/-- `RemoveStale` filters verified transactions through the given
function, keeping only those for which it returns true and for which the
balance check against the freshly reset fee map succeeds; inputs are
rebuilt from the kept transactions and re-sorted (source lines 271-297). -/
def Pool.RemoveStale (mp : Pool) (isOK : Transaction → Bool) (feer : Feer) :
    Pool :=
  let res := mp.verifiedTxes.foldl (removeStaleStep isOK feer)
    ([], [], [], mp.verifiedMap)
  { mp with
    verifiedMap := res.2.2.2
    verifiedTxes := res.1
    inputs := sortInputs res.2.1
    fees := res.2.2.1 }

/-- Default item, used only as a `getD` fallback in proofs. -/
def dummyItem : item :=
  { txn := { hash := 0
             sender := 0
             sysFee := 0
             netFee := 0
             size := 1
             inputs := [] }
    timeStamp := 0
    isLowPrio := false }

/-- The loop-residual index stays in range, and when some item carries
the hash it points at the first such item.  (The Go loop breaks at the
first match; `rangeBreakIdx` returns that index; for a singleton the
residual index is 0 whether found or not.) -/
theorem rangeBreakIdx_spec (hash : Int) (l : List item) :
    rangeBreakIdx hash l ≤ l.length ∧
    ((∃ x ∈ l, x.txn.hash = hash) →
      rangeBreakIdx hash l < l.length ∧
        (l.getD (rangeBreakIdx hash l) dummyItem).txn.hash = hash) := by
  induction l with
  | nil =>
    refine ⟨Nat.zero_le _, ?_⟩
    rintro ⟨x, hx, _⟩
    simp at hx
  | cons a rest ih =>
    cases rest with
    | nil =>
      refine ⟨by simp [rangeBreakIdx], ?_⟩
      rintro ⟨x, hx, hxh⟩
      rcases List.mem_cons.mp hx with rfl | hx2
      · exact ⟨by simp [rangeBreakIdx], by simpa [rangeBreakIdx] using hxh⟩
      · simp at hx2
    | cons b more =>
      by_cases ha : a.txn.hash = hash
      · refine ⟨by simp [rangeBreakIdx, ha], fun _ => ⟨?_, ?_⟩⟩
        · simp [rangeBreakIdx, ha]
        · simp [rangeBreakIdx, ha]
      · obtain ⟨ih1, ih2⟩ := ih
        have hunf : rangeBreakIdx hash (a :: b :: more) =
            rangeBreakIdx hash (b :: more) + 1 := by
          simp [rangeBreakIdx, ha]
        refine ⟨?_, ?_⟩
        · rw [hunf]
          simpa using ih1
        · rintro ⟨x, hx, hxh⟩
          rcases List.mem_cons.mp hx with rfl | hx2
          · exact absurd hxh ha
          · have hres := ih2 ⟨x, hx2, hxh⟩
            rw [hunf]
            refine ⟨by simpa using hres.1, ?_⟩
            rw [List.getD_cons_succ]
            exact hres.2

/-! ## §6 The reachable-state invariant of the pool -/

/-- `a` strictly outranks `b` in the §4.1 priority order. -/
def outranks (a b : item) : Prop := 0 < a.CompareTo b

instance : DecidableRel outranks := fun a b => by
  unfold outranks
  infer_instance

/-- The coherence invariant that every pool operation in fact maintains:
the verified list is sorted strictly descending, every listed item is
recorded in the map under its transaction hash, map keys are the hashes
of their items and are unique, the inputs slice is sorted, and the list
respects the capacity.  (The map may contain entries that are not on the
list, and the inputs slice is related to the pooled transactions only
loosely; see the C1/C2 theorems.) -/
def PoolInv (mp : Pool) : Prop :=
  mp.verifiedTxes.Pairwise outranks ∧
  (∀ it ∈ mp.verifiedTxes, alookup mp.verifiedMap it.txn.hash = some it) ∧
  (∀ kv ∈ mp.verifiedMap, kv.1 = kv.2.txn.hash) ∧
  (mp.verifiedMap.map Prod.fst).Nodup ∧
  mp.inputs.Pairwise (· ≤ ·) ∧
  mp.verifiedTxes.length ≤ mp.capacity

instance (mp : Pool) : Decidable (PoolInv mp) := by
  unfold PoolInv
  infer_instance

theorem sorted_nodup (l : List item) (h : l.Pairwise outranks) : l.Nodup := by
  refine h.imp ?_
  intro a b hab
  intro heq
  subst heq
  unfold outranks at hab
  rw [CompareTo_self] at hab
  omega

theorem mem_aset {β : Type} (m : List (Int × β)) (k : Int) (v : β)
    (kv : Int × β) (h : kv ∈ aset m k v) : kv ∈ m ∨ kv = (k, v) := by
  induction m with
  | nil =>
    simp only [aset, List.mem_singleton] at h
    exact Or.inr h
  | cons hd rest ih =>
    obtain ⟨k', v'⟩ := hd
    by_cases hk : k' = k
    · rw [aset, if_pos hk] at h
      rcases List.mem_cons.mp h with rfl | h2
      · exact Or.inr rfl
      · exact Or.inl (List.mem_cons.mpr (Or.inr h2))
    · rw [aset, if_neg hk] at h
      rcases List.mem_cons.mp h with rfl | h2
      · exact Or.inl (List.mem_cons.mpr (Or.inl rfl))
      · rcases ih h2 with h3 | h3
        · exact Or.inl (List.mem_cons.mpr (Or.inr h3))
        · exact Or.inr h3

theorem mem_adel {β : Type} (m : List (Int × β)) (k : Int)
    (kv : Int × β) (h : kv ∈ adel m k) : kv ∈ m := by
  induction m with
  | nil => simp [adel] at h
  | cons hd rest ih =>
    obtain ⟨k', v'⟩ := hd
    by_cases hk : k' = k
    · rw [adel, if_pos hk] at h
      exact List.mem_cons.mpr (Or.inr h)
    · rw [adel, if_neg hk] at h
      rcases List.mem_cons.mp h with rfl | h2
      · exact List.mem_cons.mpr (Or.inl rfl)
      · exact List.mem_cons.mpr (Or.inr (ih h2))

theorem findIndexForInput_le (slice : List Int) (input : Int) :
    findIndexForInput slice input ≤ slice.length :=
  (searchLoop_bounds _ slice.length 0 slice.length (Nat.zero_le _)).2

theorem pushFold_sorted (xs : List Int) : ∀ (l : List Int),
    l.Pairwise (· ≤ ·) →
    (xs.foldl (fun acc inp => pushInputToSortedSlice acc inp) l).Pairwise (· ≤ ·) := by
  induction xs with
  | nil => intro l h; exact h
  | cons x rest ih =>
    intro l h
    exact ih _ (pushInput_sorted l x h)

theorem pushFold_perm (xs : List Int) : ∀ (l : List Int),
    List.Perm (xs.foldl (fun acc inp => pushInputToSortedSlice acc inp) l)
      (xs ++ l) := by
  induction xs with
  | nil => intro l; exact List.Perm.refl l
  | cons x rest ih =>
    intro l
    have h1 := ih (pushInputToSortedSlice l x)
    have h2 : List.Perm (pushInputToSortedSlice l x) (x :: l) :=
      pushInput_perm l x (findIndexForInput_le l x)
    rw [List.cons_append]
    exact (h1.trans (List.Perm.append_left rest h2)).trans List.perm_middle

theorem dropFold_sorted (xs : List Int) : ∀ (l : List Int),
    l.Pairwise (· ≤ ·) →
    (xs.foldl (fun acc inp => dropInputFromSortedSlice acc inp) l).Pairwise (· ≤ ·) := by
  induction xs with
  | nil => intro l h; exact h
  | cons x rest ih =>
    intro l h
    exact ih _ (dropInput_sorted l x h)

theorem checkTxConflicts_frame (mp : Pool) (tx : Transaction) (fee : Feer) :
    (mp.checkTxConflicts tx fee).1.verifiedMap = mp.verifiedMap ∧
    (mp.checkTxConflicts tx fee).1.verifiedTxes = mp.verifiedTxes ∧
    (mp.checkTxConflicts tx fee).1.inputs = mp.inputs ∧
    (mp.checkTxConflicts tx fee).1.capacity = mp.capacity := by
  unfold Pool.checkTxConflicts
  split <;> simp

/-- `PoolInv` only looks at the map, the list, the inputs and the
capacity. -/
theorem PoolInv_congr (mp mp2 : Pool)
    (h1 : mp2.verifiedMap = mp.verifiedMap)
    (h2 : mp2.verifiedTxes = mp.verifiedTxes)
    (h3 : mp2.inputs = mp.inputs)
    (h4 : mp2.capacity = mp.capacity)
    (h : PoolInv mp) : PoolInv mp2 := by
  unfold PoolInv at h ⊢
  rw [h1, h2, h3, h4]
  exact h

/-- The fields written by `addFinish`. -/
theorem addFinish_frame (mp : Pool) (pItem : item) (n : Nat) :
    (mp.addFinish pItem n).1.verifiedMap = mp.verifiedMap ∧
    (mp.addFinish pItem n).1.capacity = mp.capacity ∧
    (mp.addFinish pItem n).1.fees = addSendersFeeF mp.fees pItem.txn ∧
    (mp.addFinish pItem n).1.inputs = pItem.txn.inputs.foldl
      (fun acc inp => pushInputToSortedSlice acc inp) mp.inputs ∧
    (mp.addFinish pItem n).2 = none := by
  unfold Pool.addFinish
  simp

/-- The list written by `addFinish` when the new item sits in the last
slot: the rotation inserts it at position `n`. -/
theorem addFinish_txes (mp : Pool) (pItem : item) (n : Nat) (base : List item)
    (hbase : mp.verifiedTxes = base ++ [pItem]) (hn : n ≤ base.length) :
    (mp.addFinish pItem n).1.verifiedTxes =
      base.take n ++ pItem :: base.drop n := by
  unfold Pool.addFinish
  simp only [hbase]
  by_cases h : n = base.length
  · have hcond : ¬ (n ≠ (base ++ [pItem]).length - 1) := by
      simp only [List.length_append, List.length_singleton]
      omega
    rw [if_neg hcond, h, List.take_length, List.drop_length]
  · have hcond : n ≠ (base ++ [pItem]).length - 1 := by
      simp only [List.length_append, List.length_singleton]
      omega
    rw [if_pos hcond, List.dropLast_concat,
      List.take_append_of_le_length hn]

/-- Characterization of the binary-searched insertion position in `Add`
on a sorted list of fresh-hash-distinct items: everything before the
position outranks the new item, everything from the position on is
outranked by it. -/
theorem addSearch_spec (txes : List item) (pItem : item)
    (hsorted : txes.Pairwise outranks)
    (hfresh : ∀ it ∈ txes, it.txn.hash ≠ pItem.txn.hash) :
    sortSearch txes.length
      (fun k => decide (0 < pItem.CompareTo (txes.getD k pItem))) ≤ txes.length ∧
    (∀ k, k < sortSearch txes.length
        (fun k => decide (0 < pItem.CompareTo (txes.getD k pItem))) →
      ∀ (hk : k < txes.length), outranks (txes.get ⟨k, hk⟩) pItem) ∧
    (∀ k, sortSearch txes.length
        (fun k => decide (0 < pItem.CompareTo (txes.getD k pItem))) ≤ k →
      ∀ (hk : k < txes.length), outranks pItem (txes.get ⟨k, hk⟩)) := by
  have hidx := List.pairwise_iff_getElem.mp hsorted
  have hmono : ∀ k l, k ≤ l → l < txes.length →
      (fun k => decide (0 < pItem.CompareTo (txes.getD k pItem))) k = true →
      (fun k => decide (0 < pItem.CompareTo (txes.getD k pItem))) l = true := by
    intro k l hkl hl hk
    simp only [decide_eq_true_eq] at hk ⊢
    rcases Nat.eq_or_lt_of_le hkl with rfl | hkl2
    · exact hk
    · rw [List.getD_eq_getElem txes pItem (by omega)] at hk
      rw [List.getD_eq_getElem txes pItem hl]
      exact CompareTo_pos_trans _ _ _ hk (hidx k l (by omega) hl hkl2)
  obtain ⟨h1, h2, h3⟩ := sortSearch_spec txes.length _ hmono
  set n := sortSearch txes.length
    (fun k => decide (0 < pItem.CompareTo (txes.getD k pItem))) with hn
  refine ⟨h1, ?_, ?_⟩
  · intro k hk hklen
    have hfk := h2 k hk
    simp only [decide_eq_false_iff_not] at hfk
    rw [List.getD_eq_getElem txes pItem hklen] at hfk
    have hne : pItem.txn.hash ≠ (txes.get ⟨k, hklen⟩).txn.hash := by
      have hm := hfresh _ (List.getElem_mem hklen)
      simp only [List.get_eq_getElem]
      exact fun hh => hm hh.symm
    simpa [outranks] using CompareTo_flip pItem (txes.get ⟨k, hklen⟩) hne hfk
  · intro k hk hklen
    have hnlt : n < txes.length := by omega
    have hfn := h3 hnlt
    simp only [decide_eq_true_eq] at hfn
    rw [List.getD_eq_getElem txes pItem hnlt] at hfn
    rcases Nat.eq_or_lt_of_le hk with heq | hlt
    · subst heq
      unfold outranks
      simpa [List.get_eq_getElem] using hfn
    · unfold outranks
      simp only [List.get_eq_getElem]
      exact CompareTo_pos_trans _ _ _ hfn (hidx n k hnlt hklen hlt)

/-- `addFinish` establishes the invariant, given that the list currently
holds the new item in its last slot and the insertion position `n`
separates the items outranking `pItem` from those it outranks. -/
theorem PoolInv_addFinish (mp : Pool) (pItem : item) (n : Nat) (base : List item)
    (hbase : mp.verifiedTxes = base ++ [pItem])
    (hn : n ≤ base.length)
    (hsorted : base.Pairwise outranks)
    (hbefore : ∀ k, k < n → ∀ (hk : k < base.length), outranks (base.get ⟨k, hk⟩) pItem)
    (hafter : ∀ k, n ≤ k → ∀ (hk : k < base.length), outranks pItem (base.get ⟨k, hk⟩))
    (hcoh : ∀ it ∈ base, alookup mp.verifiedMap it.txn.hash = some it)
    (hself : alookup mp.verifiedMap pItem.txn.hash = some pItem)
    (hkeys : ∀ kv ∈ mp.verifiedMap, kv.1 = kv.2.txn.hash)
    (hnodup : (mp.verifiedMap.map Prod.fst).Nodup)
    (hinp : mp.inputs.Pairwise (· ≤ ·))
    (hcap : base.length + 1 ≤ mp.capacity) :
    PoolInv (mp.addFinish pItem n).1 := by
  obtain ⟨hfm, hfc, hff, hfi, hfe⟩ := addFinish_frame mp pItem n
  have htxes := addFinish_txes mp pItem n base hbase hn
  unfold PoolInv
  rw [hfm, hfc, hfi, htxes]
  refine ⟨?_, ?_, hkeys, hnodup, ?_, ?_⟩
  · exact pairwise_insert_at outranks base pItem n hn hsorted hbefore hafter
  · intro it hit
    rcases List.mem_append.mp hit with h1 | h1
    · exact hcoh it (List.take_subset n base h1)
    · rcases List.mem_cons.mp h1 with rfl | h2
      · exact hself
      · exact hcoh it (List.drop_subset n base h2)
  · exact pushFold_sorted pItem.txn.inputs mp.inputs hinp
  · simp only [List.length_append, List.length_take, List.length_cons,
      List.length_drop]
    omega

/-- `Add` preserves the pool invariant. -/
theorem PoolInv_Add (mp : Pool) (t : Transaction) (fee : Feer) (now : Nat)
    (hinv : PoolInv mp) : PoolInv (mp.Add t fee now).1 := by
  obtain ⟨hsorted, hcoh, hkeys, hnodup, hinp, hcap⟩ := hinv
  obtain ⟨hfm, hft, hfi, hfc⟩ := checkTxConflicts_frame mp t fee
  have hinv0 : PoolInv mp := ⟨hsorted, hcoh, hkeys, hnodup, hinp, hcap⟩
  have hinv1 : PoolInv (mp.checkTxConflicts t fee).1 :=
    PoolInv_congr mp _ hfm hft hfi hfc hinv0
  simp only [Pool.Add]
  split
  · exact hinv1
  · split
    · exact hinv1
    · -- fresh hash: the duplicate test failed
      next hdup =>
      obtain ⟨hs1, hc1, hk1, hnd1, hi1, hcb1⟩ := hinv1
      set mp1 := (mp.checkTxConflicts t fee).1 with hmp1
      set pItem : item :=
        { txn := t, timeStamp := now, isLowPrio := fee.IsLowPriority t.netFee }
        with hpitem
      have hlookup : alookup mp1.verifiedMap t.hash = none := by
        rcases hres : alookup mp1.verifiedMap t.hash with _ | v
        · rfl
        · exact absurd (by simp [Pool.containsKey, hres]) hdup
      have hfresh : ∀ it ∈ mp1.verifiedTxes, it.txn.hash ≠ pItem.txn.hash := by
        intro it hit heq
        have := hc1 it hit
        rw [heq] at this
        simp only [hpitem] at this
        rw [hlookup] at this
        exact Option.noConfusion this
      obtain ⟨hsle, hsbefore, hsafter⟩ :=
        addSearch_spec mp1.verifiedTxes pItem hs1 hfresh
      -- facts about the map with the new item inserted
      have hm2coh : ∀ it ∈ mp1.verifiedTxes,
          alookup (aset mp1.verifiedMap t.hash pItem) it.txn.hash = some it := by
        intro it hit
        rw [alookup_aset_ne _ _ _ _ (hfresh it hit), hc1 it hit]
      have hm2self :
          alookup (aset mp1.verifiedMap t.hash pItem) pItem.txn.hash = some pItem := by
        simp only [hpitem]
        exact alookup_aset_self mp1.verifiedMap t.hash pItem
      have hm2keys : ∀ kv ∈ aset mp1.verifiedMap t.hash pItem,
          kv.1 = kv.2.txn.hash := by
        intro kv hkv
        rcases mem_aset _ _ _ _ hkv with h | h
        · exact hk1 kv h
        · rw [h]
      have hm2nodup : ((aset mp1.verifiedMap t.hash pItem).map Prod.fst).Nodup :=
        keys_nodup_aset mp1.verifiedMap t.hash pItem hlookup hnd1
      split
      · next hcapfull =>
        split
        · -- OOM: only the map changed
          next =>
          exact ⟨hs1, hm2coh, hm2keys, hm2nodup, hi1, hcb1⟩
        · -- eviction of the last item
          next hnlt =>
          set n := sortSearch mp1.verifiedTxes.length
            (fun k => decide (0 < pItem.CompareTo (mp1.verifiedTxes.getD k pItem)))
            with hsn
          have hlen1 : 0 < mp1.verifiedTxes.length := by omega
          set unlucky := mp1.verifiedTxes.getLastD pItem with hunl
          have hne : mp1.verifiedTxes ≠ [] := by
            intro hnil
            rw [hnil] at hlen1
            simp at hlen1
          have hsplitlast : mp1.verifiedTxes.dropLast ++ [unlucky] =
              mp1.verifiedTxes := by
            rw [hunl, List.getLastD_eq_getLast?, List.getLast?_eq_getLast _ hne,
              Option.getD_some]
            exact List.dropLast_append_getLast hne
          have hunl_mem : unlucky ∈ mp1.verifiedTxes := by
            rw [← hsplitlast]
            simp
          have hnodup_txes : mp1.verifiedTxes.Nodup := sorted_nodup _ hs1
          have hunl_not_base : unlucky ∉ mp1.verifiedTxes.dropLast := by
            intro hmem
            have := hnodup_txes
            rw [← hsplitlast] at this
            rcases List.nodup_append.mp this with ⟨_, _, hdisj⟩
            exact hdisj hmem (by simp)
          have hbase_sub : ∀ it ∈ mp1.verifiedTxes.dropLast,
              it ∈ mp1.verifiedTxes := fun it h =>
            (List.dropLast_sublist mp1.verifiedTxes).mem h
          -- apply the addFinish lemma with base = dropLast
          refine PoolInv_addFinish _ pItem n mp1.verifiedTxes.dropLast
            (by simp) ?_ ?_ ?_ ?_ ?_ ?_ ?_ ?_ ?_ ?_
          · simp only [List.length_dropLast]
            omega
          · exact hs1.sublist (List.dropLast_sublist _)
          · intro k hk hklen
            have hk2 : k < mp1.verifiedTxes.length := by
              simp only [List.length_dropLast] at hklen
              omega
            have := hsbefore k hk hk2
            have hgd : mp1.verifiedTxes.dropLast.get ⟨k, hklen⟩ =
                mp1.verifiedTxes.get ⟨k, hk2⟩ := by
              simp [List.get_eq_getElem, List.getElem_dropLast]
            rw [hgd]
            exact this
          · intro k hk hklen
            have hk2 : k < mp1.verifiedTxes.length := by
              simp only [List.length_dropLast] at hklen
              omega
            have := hsafter k hk hk2
            have hgd : mp1.verifiedTxes.dropLast.get ⟨k, hklen⟩ =
                mp1.verifiedTxes.get ⟨k, hk2⟩ := by
              simp [List.get_eq_getElem, List.getElem_dropLast]
            rw [hgd]
            exact this
          · -- base items still resolve after the eviction delete
            intro it hit
            have hitfull := hbase_sub it hit
            have hne2 : it.txn.hash ≠ unlucky.txn.hash := by
              intro heq
              have e1 := hc1 it hitfull
              have e2 := hc1 unlucky hunl_mem
              rw [heq] at e1
              rw [e1] at e2
              have : it = unlucky := by
                injection e2.symm with h
                exact h.symm
              exact hunl_not_base (this ▸ hit)
            show alookup (adel (aset mp1.verifiedMap t.hash pItem)
              unlucky.txn.hash) it.txn.hash = some it
            rw [alookup_adel_ne _ _ _ hne2]
            exact hm2coh it hitfull
          · -- the new item survives the delete too
            have hne3 : pItem.txn.hash ≠ unlucky.txn.hash :=
              fun heq => hfresh unlucky hunl_mem heq.symm
            show alookup (adel (aset mp1.verifiedMap t.hash pItem)
              unlucky.txn.hash) pItem.txn.hash = some pItem
            rw [alookup_adel_ne _ _ _ hne3]
            exact hm2self
          · intro kv hkv
            exact hm2keys kv (mem_adel _ _ _ hkv)
          · exact keys_nodup_adel _ _ hm2nodup
          · exact hi1
          · simp only [List.length_dropLast]
            omega
      · next hcapne =>
        set n := sortSearch mp1.verifiedTxes.length
          (fun k => decide (0 < pItem.CompareTo (mp1.verifiedTxes.getD k pItem)))
          with hsn
        refine PoolInv_addFinish _ pItem n mp1.verifiedTxes rfl hsle hs1
          hsbefore hsafter hm2coh hm2self hm2keys hm2nodup hi1 ?_
        have hcap2 : ¬ (mp1.verifiedTxes.length = mp1.capacity) := hcapne
        show mp1.verifiedTxes.length + 1 ≤ mp1.capacity
        omega

/-- `Remove` preserves the pool invariant.  (It may remove the *wrong*
list entry when the hash only lives in the map — see the C1 theorems —
but the coherence properties of `PoolInv` survive, since at worst an
element is dropped from the list.) -/
theorem PoolInv_Remove (mp : Pool) (h : Int) (hinv : PoolInv mp) :
    PoolInv (mp.Remove h) := by
  obtain ⟨hsorted, hcoh, hkeys, hnodup, hinp, hcap⟩ := hinv
  unfold Pool.Remove
  split
  · exact ⟨hsorted, hcoh, hkeys, hnodup, hinp, hcap⟩
  · next it hit =>
    have herase : List.Sublist
        (mp.verifiedTxes.eraseIdx (rangeBreakIdx h mp.verifiedTxes))
        mp.verifiedTxes := List.eraseIdx_sublist _ _
    refine PoolInv_congr { mp with
        verifiedMap := adel mp.verifiedMap h
        verifiedTxes := mp.verifiedTxes.eraseIdx (rangeBreakIdx h mp.verifiedTxes)
        inputs := it.txn.inputs.foldl
          (fun acc inp => dropInputFromSortedSlice acc inp) mp.inputs }
      _ rfl rfl rfl rfl ?_
    refine ⟨hsorted.sublist herase, ?_, ?_, keys_nodup_adel _ _ hnodup,
      dropFold_sorted _ _ hinp, le_trans herase.length_le hcap⟩
    · intro it2 hit2
      have hit2full : it2 ∈ mp.verifiedTxes := herase.mem hit2
      have hne : it2.txn.hash ≠ h := by
        intro heq
        have e1 := hcoh it2 hit2full
        rw [heq, hit] at e1
        injection e1 with e1
        have hexists : ∃ x ∈ mp.verifiedTxes, x.txn.hash = h :=
          ⟨it2, hit2full, heq⟩
        obtain ⟨hlt, hval⟩ := (rangeBreakIdx_spec h mp.verifiedTxes).2 hexists
        have hgetmem : mp.verifiedTxes.getD (rangeBreakIdx h mp.verifiedTxes)
            dummyItem ∈ mp.verifiedTxes := by
          rw [List.getD_eq_getElem mp.verifiedTxes dummyItem hlt]
          exact List.getElem_mem hlt
        have e2 := hcoh _ hgetmem
        rw [hval, hit] at e2
        injection e2 with e2
        -- so it2 is exactly the element at the erased index
        have hperm : List.Perm mp.verifiedTxes
            (mp.verifiedTxes.getD (rangeBreakIdx h mp.verifiedTxes) dummyItem ::
              mp.verifiedTxes.eraseIdx (rangeBreakIdx h mp.verifiedTxes)) := by
          conv_lhs => rw [← List.take_append_drop
            (rangeBreakIdx h mp.verifiedTxes) mp.verifiedTxes]
          rw [List.eraseIdx_eq_take_drop_succ,
            ← List.getElem_cons_drop mp.verifiedTxes _ hlt,
            List.getD_eq_getElem mp.verifiedTxes dummyItem hlt]
          exact List.perm_middle
        have hnd := (hperm.nodup_iff).mp (sorted_nodup _ hsorted)
        rw [List.nodup_cons] at hnd
        have heq2 : it2 = mp.verifiedTxes.getD (rangeBreakIdx h mp.verifiedTxes)
            dummyItem := by
          rw [← e1, e2]
        exact hnd.1 (heq2 ▸ hit2)
      rw [alookup_adel_ne _ _ _ hne]
      exact hcoh it2 hit2full
    · intro kv hkv
      exact hkeys kv (mem_adel _ _ _ hkv)

theorem sortInputs_sorted (l : List Int) : (sortInputs l).Pairwise (· ≤ ·) := by
  unfold sortInputs
  have htrans : ∀ a b c : Int, (fun x y : Int => decide (x ≤ y)) a b = true →
      (fun x y : Int => decide (x ≤ y)) b c = true →
      (fun x y : Int => decide (x ≤ y)) a c = true := by
    intro a b c hab hbc
    simp only [decide_eq_true_eq] at hab hbc ⊢
    omega
  have htotal : ∀ a b : Int, ((fun x y : Int => decide (x ≤ y)) a b ||
      (fun x y : Int => decide (x ≤ y)) b a) = true := by
    intro a b
    simp only [Bool.or_eq_true, decide_eq_true_eq]
    omega
  have hs := @List.sorted_mergeSort Int (fun x y : Int => decide (x ≤ y))
    htrans htotal l
  refine hs.imp ?_
  intro a b hab
  simpa using hab

theorem sortInputs_perm (l : List Int) : List.Perm (sortInputs l) l :=
  List.mergeSort_perm l _

/-- The `RemoveStale` fold: the kept items extend the accumulator by a
sublist of the iterated list; the verified map only loses entries, and
each key either keeps its binding or belongs to an iterated item that
was not kept. -/
theorem removeStale_fold (isOK : Transaction → Bool) (feer : Feer) :
    ∀ (l : List item) (kept0 : List item) (nin0 : List Int)
      (fs0 : List (Int × utilityBalanceAndFees)) (m0 : List (Int × item)),
      l.Nodup →
      (m0.map Prod.fst).Nodup →
      ∃ keptAdd,
        (l.foldl (removeStaleStep isOK feer) (kept0, nin0, fs0, m0)).1 =
          kept0 ++ keptAdd ∧
        List.Sublist keptAdd l ∧
        (((l.foldl (removeStaleStep isOK feer)
          (kept0, nin0, fs0, m0)).2.2.2.map Prod.fst).Nodup) ∧
        (∀ kv ∈ (l.foldl (removeStaleStep isOK feer)
          (kept0, nin0, fs0, m0)).2.2.2, kv ∈ m0) ∧
        (∀ hsh : Int,
          alookup (l.foldl (removeStaleStep isOK feer)
            (kept0, nin0, fs0, m0)).2.2.2 hsh = alookup m0 hsh ∨
          (∃ d ∈ l, d.txn.hash = hsh ∧ d ∉ keptAdd)) := by
  intro l
  induction l with
  | nil =>
    intro kept0 nin0 fs0 m0 _ hmk
    exact ⟨[], by simp, List.nil_sublist _, hmk, fun kv h => h,
      fun hsh => Or.inl rfl⟩
  | cons d rest ih =>
    intro kept0 nin0 fs0 m0 hnd hmk
    rw [List.foldl_cons]
    have hnd2 := List.nodup_cons.mp hnd
    by_cases hok : isOK d.txn
    · rcases hb : (tryAddSendersFeeF fs0 d.txn feer).2 with _ | _
      · -- balance check failed: the item is dropped and its hash deleted
        have hstep : removeStaleStep isOK feer (kept0, nin0, fs0, m0) d =
            (kept0, nin0, (tryAddSendersFeeF fs0 d.txn feer).1,
              adel m0 d.txn.hash) := by
          simp [removeStaleStep, hok, hb]
        rw [hstep]
        obtain ⟨ka, h1, h2, h3, h4, h5⟩ := ih kept0 nin0 _ _ hnd2.2
          (keys_nodup_adel _ _ hmk)
        refine ⟨ka, h1, h2.cons d, h3,
          fun kv hkv => mem_adel _ _ _ (h4 kv hkv), ?_⟩
        intro hsh
        rcases h5 hsh with h6 | ⟨d2, hd2, hdh, hdk⟩
        · by_cases hd : hsh = d.txn.hash
          · right
            refine ⟨d, List.mem_cons_self d rest, hd.symm, ?_⟩
            intro hmem
            exact hnd2.1 (h2.mem hmem)
          · left
            rw [h6, alookup_adel_ne _ _ _ hd]
        · right
          exact ⟨d2, List.mem_cons_of_mem d hd2, hdh, hdk⟩
      · -- kept
        have hstep : removeStaleStep isOK feer (kept0, nin0, fs0, m0) d =
            (kept0 ++ [d], nin0 ++ d.txn.inputs,
              (tryAddSendersFeeF fs0 d.txn feer).1, m0) := by
          simp [removeStaleStep, hok, hb]
        rw [hstep]
        obtain ⟨ka, h1, h2, h3, h4, h5⟩ := ih (kept0 ++ [d]) _ _ _ hnd2.2 hmk
        refine ⟨d :: ka, ?_, h2.cons_cons d, h3, h4, ?_⟩
        · rw [h1, List.append_assoc, List.singleton_append]
        · intro hsh
          rcases h5 hsh with h6 | ⟨d2, hd2, hdh, hdk⟩
          · exact Or.inl h6
          · right
            refine ⟨d2, List.mem_cons_of_mem d hd2, hdh, ?_⟩
            intro hmem
            rcases List.mem_cons.mp hmem with rfl | hmem2
            · exact hnd2.1 hd2
            · exact hdk hmem2
    · -- predicate rejected the item: dropped and its hash deleted
      have hstep : removeStaleStep isOK feer (kept0, nin0, fs0, m0) d =
          (kept0, nin0, fs0, adel m0 d.txn.hash) := by
        simp [removeStaleStep, hok]
      rw [hstep]
      obtain ⟨ka, h1, h2, h3, h4, h5⟩ := ih kept0 nin0 _ _ hnd2.2
        (keys_nodup_adel _ _ hmk)
      refine ⟨ka, h1, h2.cons d, h3,
        fun kv hkv => mem_adel _ _ _ (h4 kv hkv), ?_⟩
      intro hsh
      rcases h5 hsh with h6 | ⟨d2, hd2, hdh, hdk⟩
      · by_cases hd : hsh = d.txn.hash
        · right
          refine ⟨d, List.mem_cons_self d rest, hd.symm, ?_⟩
          intro hmem
          exact hnd2.1 (h2.mem hmem)
        · left
          rw [h6, alookup_adel_ne _ _ _ hd]
      · right
        exact ⟨d2, List.mem_cons_of_mem d hd2, hdh, hdk⟩

/-- `RemoveStale` preserves the pool invariant. -/
theorem PoolInv_RemoveStale (mp : Pool) (isOK : Transaction → Bool)
    (feer : Feer) (hinv : PoolInv mp) : PoolInv (mp.RemoveStale isOK feer) := by
  obtain ⟨hsorted, hcoh, hkeys, hnodup, hinp, hcap⟩ := hinv
  have hndl : mp.verifiedTxes.Nodup := sorted_nodup _ hsorted
  obtain ⟨ka, h1, h2, h3, h4, h5⟩ := removeStale_fold isOK feer
    mp.verifiedTxes [] [] [] mp.verifiedMap hndl hnodup
  unfold Pool.RemoveStale
  rw [List.nil_append] at h1
  refine ⟨?_, ?_, ?_, ?_, ?_, ?_⟩
  · show (mp.verifiedTxes.foldl (removeStaleStep isOK feer)
      ([], [], [], mp.verifiedMap)).1.Pairwise outranks
    rw [h1]
    exact hsorted.sublist h2
  · intro it hit
    have hit2 : it ∈ (mp.verifiedTxes.foldl (removeStaleStep isOK feer)
        ([], [], [], mp.verifiedMap)).1 := hit
    rw [h1] at hit2
    have hfull : it ∈ mp.verifiedTxes := h2.mem hit2
    rcases h5 it.txn.hash with h6 | ⟨d2, hd2, hdh, hdk⟩
    · show alookup (mp.verifiedTxes.foldl (removeStaleStep isOK feer)
        ([], [], [], mp.verifiedMap)).2.2.2 it.txn.hash = some it
      rw [h6]
      exact hcoh it hfull
    · -- the hash of a kept item cannot belong to a dropped item
      have e1 := hcoh d2 hd2
      rw [hdh] at e1
      have e2 := hcoh it hfull
      rw [e2] at e1
      injection e1 with e1
      subst e1
      exact absurd hit2 hdk
  · intro kv hkv
    exact hkeys kv (h4 kv hkv)
  · exact h3
  · exact sortInputs_sorted _
  · show (mp.verifiedTxes.foldl (removeStaleStep isOK feer)
      ([], [], [], mp.verifiedMap)).1.length ≤ mp.capacity
    rw [h1]
    exact le_trans h2.length_le hcap

/-- Every pool reachable from a fresh pool satisfies the invariant. -/
def PoolOp : Type :=
  (Transaction × Feer × Nat) ⊕ Int ⊕ ((Transaction → Bool) × Feer)

/-- Apply one pool operation (`Add`, `Remove` or `RemoveStale`). -/
def applyPoolOp (mp : Pool) : PoolOp → Pool
  | Sum.inl (t, fee, now) => (mp.Add t fee now).1
  | Sum.inr (Sum.inl h) => mp.Remove h
  | Sum.inr (Sum.inr (isOK, feer)) => mp.RemoveStale isOK feer

/-- Run a sequence of operations from a fresh pool. -/
def runPool (capacity : Nat) (ops : List PoolOp) : Pool :=
  ops.foldl applyPoolOp (NewMemPool capacity)

theorem PoolInv_NewMemPool (capacity : Nat) : PoolInv (NewMemPool capacity) := by
  unfold PoolInv NewMemPool
  refine ⟨List.Pairwise.nil, ?_, ?_, ?_, List.Pairwise.nil, ?_⟩ <;> simp

theorem PoolInv_applyPoolOp (mp : Pool) (op : PoolOp) (hinv : PoolInv mp) :
    PoolInv (applyPoolOp mp op) := by
  rcases op with ⟨t, fee, now⟩ | h | ⟨isOK, feer⟩
  · exact PoolInv_Add mp t fee now hinv
  · exact PoolInv_Remove mp h hinv
  · exact PoolInv_RemoveStale mp isOK feer hinv

theorem PoolInv_runPool (capacity : Nat) (ops : List PoolOp) :
    PoolInv (runPool capacity ops) := by
  unfold runPool
  have hgen : ∀ (l : List PoolOp) (mp : Pool), PoolInv mp →
      PoolInv (l.foldl applyPoolOp mp) := by
    intro l
    induction l with
    | nil => intro mp h; exact h
    | cons op rest ih =>
      intro mp h
      exact ih _ (PoolInv_applyPoolOp mp op h)
  exact hgen ops _ (PoolInv_NewMemPool capacity)

/-- The pool item `Add` builds for transaction `t` at time `now`
(source lines 186-190). -/
def addPItem (t : Transaction) (fee : Feer) (now : Nat) : item :=
  { txn := t, timeStamp := now, isLowPrio := fee.IsLowPriority t.netFee }

/-- The insertion position `Add` computes by binary search
(source lines 208-210). -/
def addInsertPos (mp : Pool) (t : Transaction) (fee : Feer) (now : Nat) : Nat :=
  sortSearch mp.verifiedTxes.length (fun k =>
    decide (0 < (addPItem t fee now).CompareTo
      (mp.verifiedTxes.getD k (addPItem t fee now))))

/-! ## §7 Claims about the memory pool -/

/-- The three-way coherence property the specification asserts for every
reachable pool state (§8 property 1): list sorted strictly descending,
list items = map items as sets, and the inputs sequence is exactly the
sorted multiset of the pooled transactions' inputs. -/
def ThreeWayCoherent (mp : Pool) : Prop :=
  mp.verifiedTxes.Pairwise outranks ∧
  (∀ it ∈ mp.verifiedTxes, it ∈ mp.verifiedMap.map Prod.snd) ∧
  (∀ kv ∈ mp.verifiedMap, kv.2 ∈ mp.verifiedTxes) ∧
  mp.inputs.Pairwise (· ≤ ·) ∧
  List.Perm mp.inputs (mp.verifiedTxes.flatMap fun it => it.txn.inputs)

instance (mp : Pool) : Decidable (ThreeWayCoherent mp) := by
  unfold ThreeWayCoherent
  infer_instance

/-- Fee policy used in the concrete scenarios: ample balances, nothing
is low priority. -/
def cexFeer : Feer :=
  { GetUtilityTokenBalance := fun _ => 1000000
    IsLowPriority := fun _ => false }

/-- Concrete transaction builder for the scenarios. -/
def cexTx (h fee : Int) (inps : List Int) : Transaction :=
  { hash := h, sender := 0, sysFee := 0, netFee := fee, size := 1, inputs := inps }

/-- Scenario refuting the three-way coherence claim: fill a capacity-2
pool with hashes 1 and 2, fail an `Add` of hash 3 with out-of-memory
(leaving hash 3 orphaned in the map), add hash 4 which evicts hash 1
(leaving its accounting), then `Remove` the orphan hash 3 — which drops
the *last list entry* (hash 2) from the list but not from the map, and
drops the live input 9 of hash 4 from the inputs sequence. -/
def cexOps : List PoolOp :=
  [Sum.inl (cexTx 1 10 [], cexFeer, 0),
   Sum.inl (cexTx 2 30 [], cexFeer, 0),
   Sum.inl (cexTx 3 5 [9], cexFeer, 0),
   Sum.inl (cexTx 4 50 [9], cexFeer, 0),
   Sum.inr (Sum.inl 3)]

/-- C1 (counterexample): the three-way coherence invariant claimed in
the spec fails on a state reachable by five operations: the map holds an
item missing from the list, and the inputs sequence is not the multiset
of the pooled inputs. -/
theorem C1_counterexample : ¬ ThreeWayCoherent (runPool 2 cexOps) := by
  decide

/-- C1 (amended): for every pool state reachable from the empty pool by
`Add`/`Remove`/`RemoveStale`, the verified list is sorted strictly
descending by the §4.1 order, every listed item is recorded in
`verifiedMap` under its transaction hash, the inputs sequence is sorted,
and the capacity bound holds — but the map may hold items that are not
on the list (left by a failed `Add` at capacity, or stranded by a
`Remove` of such an orphaned hash), and the inputs sequence may keep
inputs of evicted transactions or lose inputs of live ones, so the
claimed set equality and input-multiset equality do not hold. -/
theorem C1_amended_coherence (capacity : Nat) (ops : List PoolOp) :
    (runPool capacity ops).verifiedTxes.Pairwise outranks ∧
    (∀ it ∈ (runPool capacity ops).verifiedTxes,
      alookup (runPool capacity ops).verifiedMap it.txn.hash = some it) ∧
    (runPool capacity ops).inputs.Pairwise (· ≤ ·) ∧
    (runPool capacity ops).verifiedTxes.length ≤ (runPool capacity ops).capacity := by
  obtain ⟨h1, h2, _, _, h5, h6⟩ := PoolInv_runPool capacity ops
  exact ⟨h1, h2, h5, h6⟩

/-- C3 (counterexample): `Verify` is *not* state-preserving — on an
empty pool it stores a balance snapshot for the unseen sender. -/
theorem C3_counterexample :
    ((NewMemPool 10).Verify (cexTx 8 10 []) cexFeer).1 ≠ NewMemPool 10 := by
  decide

/-- C3 (amended): `Verify(tx)` returns true iff `Add(tx)` would pass
both the input-conflict and the balance check (i.e. would not return
`ErrConflict`), and it leaves the verified map, the verified list, the
inputs sequence and the capacity unchanged; but it is not read-only on
`senderFees`: when the input check passes it stores a balance snapshot
for a previously unseen sender. -/
theorem C3_amended_verify (mp : Pool) (tx : Transaction) (feer : Feer)
    (now : Nat) :
    ((mp.Verify tx feer).2 = true ↔ (mp.Add tx feer now).2 ≠ some AddErr.conflict) ∧
    (mp.Verify tx feer).1.verifiedMap = mp.verifiedMap ∧
    (mp.Verify tx feer).1.verifiedTxes = mp.verifiedTxes ∧
    (mp.Verify tx feer).1.inputs = mp.inputs ∧
    (mp.Verify tx feer).1.capacity = mp.capacity ∧
    ((mp.Verify tx feer).1.fees = mp.fees ∨
      (mp.Verify tx feer).1.fees = aset mp.fees tx.sender
        { balance := feer.GetUtilityTokenBalance tx.sender, feeSum := 0 }) := by
  obtain ⟨hfm, hft, hfi, hfc⟩ := checkTxConflicts_frame mp tx feer
  refine ⟨?_, hfm, hft, hfi, hfc, ?_⟩
  · constructor
    · intro htrue
      simp only [Pool.Add]
      rw [Pool.Verify] at htrue
      rw [if_neg (by rw [htrue]; simp)]
      split
      · simp
      · split
        · split
          · simp
          · rw [addFinish_frame _ _ _ |>.2.2.2.2]
            simp
        · rw [addFinish_frame _ _ _ |>.2.2.2.2]
          simp
    · intro hne
      by_contra hfalse
      have hcf : (mp.checkTxConflicts tx feer).2 = false := by
        rcases hres : (mp.checkTxConflicts tx feer).2 with _ | _
        · rfl
        · exact absurd (by rw [Pool.Verify]; exact hres) hfalse
      apply hne
      simp only [Pool.Add]
      rw [if_pos (by rw [hcf])]
  · rw [Pool.Verify, Pool.checkTxConflicts]
    split
    · exact Or.inl rfl
    · simp only []
      unfold checkBalanceAndUpdateF
      rcases hl : alookup mp.fees tx.sender with _ | sf
      · exact Or.inr rfl
      · exact Or.inl rfl

/-- C8 (confirmed): the item comparison realizes the mandated §4.1
priority order — normal before low, then fee-per-byte, then network fee,
then the lexicographically smaller hash — and on items with distinct
transaction hashes the order is total, asymmetric and transitive. -/
theorem C8_priority_order :
    (∀ A B : item, outranks A B ↔
      ((¬ A.isLowPrio ∧ B.isLowPrio) ∨
        (A.isLowPrio = B.isLowPrio ∧
          (B.txn.feePerByte < A.txn.feePerByte ∨
            (A.txn.feePerByte = B.txn.feePerByte ∧
              (B.txn.netFee < A.txn.netFee ∨
                (A.txn.netFee = B.txn.netFee ∧ A.txn.hash < B.txn.hash))))))) ∧
    (∀ A B : item, A.txn.hash ≠ B.txn.hash → (outranks A B ↔ ¬ outranks B A)) ∧
    (∀ A B C : item, outranks A B → outranks B C → outranks A C) := by
  refine ⟨?_, ?_, CompareTo_pos_trans⟩
  · intro A B
    unfold outranks
    rw [CompareTo_pos_iff]
    unfold prioRank
    cases hA : A.isLowPrio <;> cases hB : B.isLowPrio <;> simp
  · intro A B hne
    constructor
    · intro h
      exact CompareTo_pos_asymm A B h
    · intro h
      exact CompareTo_flip B A (fun hh => hne hh.symm) h

/-- Witness for C8 at concrete items: hash-distinct items are compared
asymmetrically. -/
theorem C8_priority_order_witness :
    (addPItem (cexTx 1 10 []) cexFeer 0).txn.hash ≠
      (addPItem (cexTx 2 30 []) cexFeer 0).txn.hash ∧
    (outranks (addPItem (cexTx 1 10 []) cexFeer 0)
        (addPItem (cexTx 2 30 []) cexFeer 0) ↔
      ¬ outranks (addPItem (cexTx 2 30 []) cexFeer 0)
        (addPItem (cexTx 1 10 []) cexFeer 0)) :=
  ⟨by decide, C8_priority_order.2.1 _ _ (by decide)⟩

theorem checkTxConflicts_true_inputs (mp : Pool) (tx : Transaction) (fee : Feer)
    (h : (mp.checkTxConflicts tx fee).2 = true) :
    areInputsInPool tx.inputs mp.inputs = false := by
  unfold Pool.checkTxConflicts at h
  by_cases ha : areInputsInPool tx.inputs mp.inputs
  · rw [if_pos ha] at h
    simp at h
  · simpa using ha

theorem checkBalance_fees_lookup_ne (fees : List (Int × utilityBalanceAndFees))
    (tx : Transaction) (feer : Feer) (s : Int) (hs : s ≠ tx.sender) :
    alookup (checkBalanceAndUpdateF fees tx feer).1 s = alookup fees s := by
  unfold checkBalanceAndUpdateF
  rcases alookup fees tx.sender with _ | sf
  · exact alookup_aset_ne _ _ _ _ hs
  · rfl

theorem addSendersFee_lookup_ne (fees : List (Int × utilityBalanceAndFees))
    (tx : Transaction) (s : Int) (hs : s ≠ tx.sender) :
    alookup (addSendersFeeF fees tx) s = alookup fees s := by
  unfold addSendersFeeF
  exact alookup_aset_ne _ _ _ _ hs

theorem checkTxConflicts_fees_ne (mp : Pool) (tx : Transaction) (fee : Feer)
    (s : Int) (hs : s ≠ tx.sender) :
    alookup (mp.checkTxConflicts tx fee).1.fees s = alookup mp.fees s := by
  unfold Pool.checkTxConflicts
  split
  · rfl
  · exact checkBalance_fees_lookup_ne mp.fees tx fee s hs

/-- The out-of-memory branch of `Add`: the conflict and duplicate checks
have passed, the pool is full, nothing is outranked, and the result is
the pool with *only* the map extended by the new item. -/
theorem Add_oom_cases (mp : Pool) (t : Transaction) (fee : Feer) (now : Nat)
    (hoom : (mp.Add t fee now).2 = some AddErr.oom) :
    (mp.checkTxConflicts t fee).2 = true ∧
    (mp.checkTxConflicts t fee).1.containsKey t.hash = false ∧
    mp.Add t fee now = ({ (mp.checkTxConflicts t fee).1 with
      verifiedMap := aset (mp.checkTxConflicts t fee).1.verifiedMap t.hash
        (addPItem t fee now) }, some AddErr.oom) := by
  have h1 : ¬ ((mp.checkTxConflicts t fee).2 = false) := by
    intro h
    simp only [Pool.Add] at hoom
    rw [if_pos h] at hoom
    simp at hoom
  have h1t : (mp.checkTxConflicts t fee).2 = true := by
    rcases hres : (mp.checkTxConflicts t fee).2 with _ | _
    · exact absurd hres h1
    · rfl
  have h2 : ¬ ((mp.checkTxConflicts t fee).1.containsKey t.hash = true) := by
    intro h
    simp only [Pool.Add] at hoom
    rw [if_neg h1, if_pos h] at hoom
    simp at hoom
  have h2f : (mp.checkTxConflicts t fee).1.containsKey t.hash = false := by
    rcases hres : (mp.checkTxConflicts t fee).1.containsKey t.hash with _ | _
    · rfl
    · exact absurd hres h2
  refine ⟨h1t, h2f, ?_⟩
  simp only [Pool.Add] at hoom ⊢
  rw [if_neg h1, if_neg h2] at hoom ⊢
  by_cases h3 : (mp.checkTxConflicts t fee).1.verifiedTxes.length =
      (mp.checkTxConflicts t fee).1.capacity
  · rw [if_pos h3] at hoom ⊢
    by_cases h4 : sortSearch (mp.checkTxConflicts t fee).1.verifiedTxes.length
        (fun k => decide (0 <
          ({ txn := t, timeStamp := now, isLowPrio := fee.IsLowPriority t.netFee } :
            item).CompareTo
          ((mp.checkTxConflicts t fee).1.verifiedTxes.getD k
            { txn := t, timeStamp := now, isLowPrio := fee.IsLowPriority t.netFee }))) =
        (mp.checkTxConflicts t fee).1.verifiedTxes.length
    · rw [if_pos h4]
      rfl
    · rw [if_neg h4] at hoom
      rw [(addFinish_frame _ _ _).2.2.2.2] at hoom
      simp at hoom
  · rw [if_neg h3] at hoom
    rw [(addFinish_frame _ _ _).2.2.2.2] at hoom
    simp at hoom

/-- C9 (confirmed): when `Add` fails with out-of-memory on a full pool,
the transaction's hash was already inserted into `verifiedMap` before
the capacity check and is not removed on this error path: afterwards
`ContainsKey` answers true although the transaction is on neither the
verified list nor the inputs sequence. -/
theorem C9_oom_not_atomic (mp : Pool) (t : Transaction) (fee : Feer) (now : Nat)
    (hinv : PoolInv mp)
    (hoom : (mp.Add t fee now).2 = some AddErr.oom) :
    (mp.Add t fee now).1.containsKey t.hash = true ∧
    (mp.Add t fee now).1.verifiedTxes = mp.verifiedTxes ∧
    (∀ it ∈ (mp.Add t fee now).1.verifiedTxes, it.txn.hash ≠ t.hash) ∧
    (mp.Add t fee now).1.inputs = mp.inputs ∧
    (∀ inp ∈ t.inputs, inp ∉ (mp.Add t fee now).1.inputs) := by
  obtain ⟨hsorted, hcoh, hkeys, hnodup, hinp, hcap⟩ := hinv
  obtain ⟨hfm, hft, hfi, hfc⟩ := checkTxConflicts_frame mp t fee
  obtain ⟨h1t, h2f, heq⟩ := Add_oom_cases mp t fee now hoom
  have hlook : alookup mp.verifiedMap t.hash = none := by
    unfold Pool.containsKey at h2f
    rw [hfm] at h2f
    rcases hres : alookup mp.verifiedMap t.hash with _ | v
    · rfl
    · rw [hres] at h2f
      simp at h2f
  rw [heq]
  refine ⟨?_, hft, ?_, hfi, ?_⟩
  · unfold Pool.containsKey
    show (alookup (aset (mp.checkTxConflicts t fee).1.verifiedMap t.hash
      (addPItem t fee now)) t.hash).isSome = true
    rw [alookup_aset_self]
    rfl
  · intro it hit
    have hit2 : it ∈ mp.verifiedTxes := by
      have : it ∈ (mp.checkTxConflicts t fee).1.verifiedTxes := hit
      rw [hft] at this
      exact this
    intro hh
    have := hcoh it hit2
    rw [hh, hlook] at this
    exact Option.noConfusion this
  · intro inp hin
    show inp ∉ (mp.checkTxConflicts t fee).1.inputs
    rw [hfi]
    intro hmem
    have hover : areInputsInPool t.inputs mp.inputs = false :=
      checkTxConflicts_true_inputs mp t fee h1t
    have : areInputsInPool t.inputs mp.inputs = true :=
      (areInputsInPool_iff t.inputs mp.inputs hinp).mpr ⟨inp, hin, hmem⟩
    rw [hover] at this
    exact Bool.noConfusion this

/-- A capacity-1 pool holding one transaction (hash 1) with input 5. -/
def c2Pool : Pool := runPool 1 [Sum.inl (cexTx 1 10 [5], cexFeer, 0)]

/-- Witness for C9: a concrete full pool, a concrete rejected
transaction, and the orphaned map entry it leaves behind. -/
theorem C9_oom_not_atomic_witness :
    PoolInv c2Pool ∧
    (c2Pool.Add (cexTx 3 5 [9]) cexFeer 0).2 = some AddErr.oom ∧
    (c2Pool.Add (cexTx 3 5 [9]) cexFeer 0).1.containsKey 3 = true :=
  ⟨by decide, by decide,
    (C9_oom_not_atomic c2Pool (cexTx 3 5 [9]) cexFeer 0 (by decide)
      (by decide)).1⟩

/-- The state passed to `addFinish` by the eviction branch of `Add`:
the conflict-checked pool with the new item inserted into the map, the
last (lowest-priority) list entry deleted from the map, and the list
rotated so the new item sits in the freed last slot. -/
def evictBase (mp : Pool) (t : Transaction) (fee : Feer) (now : Nat) : Pool :=
  { verifiedMap := adel (aset (mp.checkTxConflicts t fee).1.verifiedMap t.hash
      (addPItem t fee now))
      ((mp.verifiedTxes.getLastD (addPItem t fee now)).txn.hash)
    verifiedTxes := mp.verifiedTxes.dropLast ++ [addPItem t fee now]
    inputs := (mp.checkTxConflicts t fee).1.inputs
    fees := (mp.checkTxConflicts t fee).1.fees
    capacity := mp.capacity }

/-- The eviction branch of `Add`: with the conflict and duplicate checks
passed, the pool full, and the new item outranking some pooled item,
`Add` reduces to `addFinish` on `evictBase`. -/
theorem Add_evict_eq (mp : Pool) (t : Transaction) (fee : Feer) (now : Nat)
    (hconf : (mp.checkTxConflicts t fee).2 = true)
    (hdup : mp.containsKey t.hash = false)
    (hfull : mp.verifiedTxes.length = mp.capacity)
    (hpos : addInsertPos mp t fee now ≠ mp.verifiedTxes.length) :
    mp.Add t fee now = (evictBase mp t fee now).addFinish
      (addPItem t fee now) (addInsertPos mp t fee now) := by
  obtain ⟨hfm, hft, hfi, hfc⟩ := checkTxConflicts_frame mp t fee
  have hc1 : ¬ ((mp.checkTxConflicts t fee).2 = false) := by
    rw [hconf]
    simp
  have hdup1 : ¬ ((mp.checkTxConflicts t fee).1.containsKey t.hash = true) := by
    unfold Pool.containsKey at hdup ⊢
    rw [hfm]
    rw [hdup]
    simp
  have hpos' : ¬ (sortSearch mp.verifiedTxes.length
      (fun k => decide (0 <
        ({ txn := t, timeStamp := now, isLowPrio := fee.IsLowPriority t.netFee } :
          item).CompareTo
        (mp.verifiedTxes.getD k
          { txn := t, timeStamp := now, isLowPrio := fee.IsLowPriority t.netFee }))) =
      mp.verifiedTxes.length) := hpos
  simp only [Pool.Add]
  rw [if_neg hc1, if_neg hdup1]
  simp only [hft, hfc]
  rw [if_pos hfull, if_neg hpos']
  rfl

/-- C2 (counterexample): adding a higher-priority transaction to the
full capacity-1 pool `c2Pool` evicts the pooled item — hash 1 leaves
both the map and the list — yet input 5 of the evicted transaction
remains in the inputs sequence, so the eviction is not a full removal. -/
theorem C2_counterexample :
    ¬ ((c2Pool.Add (cexTx 6 20 [7]) cexFeer 0).2 = none ∧
       alookup (c2Pool.Add (cexTx 6 20 [7]) cexFeer 0).1.verifiedMap 1 = none →
       ∀ inp ∈ (cexTx 1 10 [5]).inputs,
         inp ∉ (c2Pool.Add (cexTx 6 20 [7]) cexFeer 0).1.inputs) := by
  decide

/-- C2 (amended): when `Add` on a full pool evicts the last
(lowest-priority) item, the evicted hash leaves the map and the evicted
item leaves the list, the new item enters the list and the length is
preserved, and the fee record of any *other* sender is untouched — but
the evicted transaction's inputs are NOT removed: the resulting inputs
sequence is a permutation of the new transaction's inputs appended to
the old sequence, so every pooled input of the evicted transaction
survives. -/
theorem C2_amended_eviction (mp : Pool) (t : Transaction) (fee : Feer) (now : Nat)
    (hinv : PoolInv mp)
    (hconf : (mp.checkTxConflicts t fee).2 = true)
    (hdup : mp.containsKey t.hash = false)
    (hfull : mp.verifiedTxes.length = mp.capacity)
    (hpos : addInsertPos mp t fee now < mp.verifiedTxes.length)
    (hne : mp.verifiedTxes ≠ []) :
    (mp.Add t fee now).2 = none ∧
    alookup (mp.Add t fee now).1.verifiedMap
      (mp.verifiedTxes.getLast hne).txn.hash = none ∧
    mp.verifiedTxes.getLast hne ∉ (mp.Add t fee now).1.verifiedTxes ∧
    addPItem t fee now ∈ (mp.Add t fee now).1.verifiedTxes ∧
    (mp.Add t fee now).1.verifiedTxes.length = mp.verifiedTxes.length ∧
    List.Perm (mp.Add t fee now).1.inputs (t.inputs ++ mp.inputs) ∧
    (∀ inp ∈ (mp.verifiedTxes.getLast hne).txn.inputs, inp ∈ mp.inputs →
      inp ∈ (mp.Add t fee now).1.inputs) ∧
    ((mp.verifiedTxes.getLast hne).txn.sender ≠ t.sender →
      alookup (mp.Add t fee now).1.fees (mp.verifiedTxes.getLast hne).txn.sender =
        alookup mp.fees (mp.verifiedTxes.getLast hne).txn.sender) := by
  obtain ⟨hsorted, hcoh, hkeys, hnodup, hinp, hcap⟩ := hinv
  obtain ⟨hfm, hft, hfi, hfc⟩ := checkTxConflicts_frame mp t fee
  have hpne : addInsertPos mp t fee now ≠ mp.verifiedTxes.length := Nat.ne_of_lt hpos
  have heq := Add_evict_eq mp t fee now hconf hdup hfull hpne
  have hlook : alookup mp.verifiedMap t.hash = none := by
    unfold Pool.containsKey at hdup
    rcases hres : alookup mp.verifiedMap t.hash with _ | v
    · rfl
    · rw [hres] at hdup
      simp at hdup
  have hu : mp.verifiedTxes.getLastD (addPItem t fee now) =
      mp.verifiedTxes.getLast hne := by
    rw [List.getLastD_eq_getLast?, List.getLast?_eq_getLast mp.verifiedTxes hne]
    rfl
  have humem : mp.verifiedTxes.getLast hne ∈ mp.verifiedTxes :=
    List.getLast_mem hne
  have huhash : (mp.verifiedTxes.getLast hne).txn.hash ≠ t.hash := by
    intro hh
    have := hcoh _ humem
    rw [hh, hlook] at this
    exact Option.noConfusion this
  have hsplit : mp.verifiedTxes.dropLast ++ [mp.verifiedTxes.getLast hne] =
      mp.verifiedTxes := List.dropLast_append_getLast hne
  have hnodupl : mp.verifiedTxes.Nodup := sorted_nodup _ hsorted
  have hunotdl : mp.verifiedTxes.getLast hne ∉ mp.verifiedTxes.dropLast := by
    intro hmem
    have hnd := hnodupl
    rw [← hsplit] at hnd
    rcases List.nodup_append.mp hnd with ⟨_, _, hdisj⟩
    exact hdisj hmem (List.mem_singleton.mpr rfl)
  have hdl : mp.verifiedTxes.dropLast.length = mp.verifiedTxes.length - 1 :=
    List.length_dropLast mp.verifiedTxes
  have hn : addInsertPos mp t fee now ≤ mp.verifiedTxes.dropLast.length := by
    omega
  have htxes : (mp.Add t fee now).1.verifiedTxes =
      mp.verifiedTxes.dropLast.take (addInsertPos mp t fee now) ++
      addPItem t fee now ::
        mp.verifiedTxes.dropLast.drop (addInsertPos mp t fee now) := by
    rw [heq]
    exact addFinish_txes _ _ _ mp.verifiedTxes.dropLast rfl hn
  have hperm : List.Perm (mp.Add t fee now).1.inputs (t.inputs ++ mp.inputs) := by
    rw [heq, (addFinish_frame _ _ _).2.2.2.1]
    show List.Perm (t.inputs.foldl (fun acc inp => pushInputToSortedSlice acc inp)
      (evictBase mp t fee now).inputs) (t.inputs ++ mp.inputs)
    have hbi : (evictBase mp t fee now).inputs = mp.inputs := hfi
    rw [hbi]
    exact pushFold_perm t.inputs mp.inputs
  have hphash : (addPItem t fee now).txn.hash = t.hash := rfl
  refine ⟨?_, ?_, ?_, ?_, ?_, hperm, ?_, ?_⟩
  · rw [heq]
    exact (addFinish_frame _ _ _).2.2.2.2
  · rw [heq, (addFinish_frame _ _ _).1]
    show alookup (adel (aset (mp.checkTxConflicts t fee).1.verifiedMap t.hash
      (addPItem t fee now))
      ((mp.verifiedTxes.getLastD (addPItem t fee now)).txn.hash))
      (mp.verifiedTxes.getLast hne).txn.hash = none
    rw [hu, hfm]
    exact alookup_adel_self _ _ (keys_nodup_aset _ _ _ hlook hnodup)
  · rw [htxes]
    intro hmem
    rcases List.mem_append.mp hmem with hmem1 | hmem2
    · exact hunotdl (List.mem_of_mem_take hmem1)
    · rcases List.mem_cons.mp hmem2 with hup | hmem3
      · exact huhash (by rw [hup]; exact hphash)
      · exact hunotdl (List.mem_of_mem_drop hmem3)
  · rw [htxes]
    exact List.mem_append.mpr (Or.inr (List.mem_cons_self _ _))
  · rw [htxes]
    simp only [List.length_append, List.length_cons, List.length_take,
      List.length_drop]
    omega
  · intro inp _ hmem
    exact hperm.symm.mem_iff.mp (List.mem_append_right _ hmem)
  · intro hsender
    rw [heq, (addFinish_frame _ _ _).2.2.1]
    show alookup (addSendersFeeF (evictBase mp t fee now).fees
      (addPItem t fee now).txn) (mp.verifiedTxes.getLast hne).txn.sender =
      alookup mp.fees (mp.verifiedTxes.getLast hne).txn.sender
    have hbf : (evictBase mp t fee now).fees =
      (mp.checkTxConflicts t fee).1.fees := rfl
    rw [hbf]
    exact (addSendersFee_lookup_ne _ t _ hsender).trans
      (checkTxConflicts_fees_ne mp t fee _ hsender)

/-- Witness for C2 (amended): a concrete capacity-1 pool where adding a
higher-priority transaction evicts the pooled item while its input 5
stays in the inputs sequence. -/
theorem C2_amended_eviction_witness :
    PoolInv c2Pool ∧
    List.Perm (c2Pool.Add (cexTx 6 20 [7]) cexFeer 0).1.inputs
      ((cexTx 6 20 [7]).inputs ++ c2Pool.inputs) :=
  ⟨by decide,
    (C2_amended_eviction c2Pool (cexTx 6 20 [7]) cexFeer 0 (by decide)
      (by decide) (by decide) (by decide) (by decide) (by decide)).2.2.2.2.2.1⟩

/-! ## §8 Peer session (src/pkg/network/tcp_peer.go)

The handshake state is the `handShake` bit field of `TCPPeer`; the
four stage bits are `1 << iota` constants (source lines 18-23). -/

def versionSent : Nat := 1

def versionReceived : Nat := 2

def verAckSent : Nat := 4

def verAckReceived : Nat := 8

/-- `Handshaked` (source lines 270-274). -/
def Handshaked (s : Nat) : Bool :=
  s == (verAckReceived ||| verAckSent ||| versionReceived ||| versionSent)

/-- `SendVersion` (source lines 277-289): `writeOk` stands for the
success of `writeMsg`; the stage bit is set only when the write
succeeded. -/
def SendVersion (writeOk : Bool) (s : Nat) : Nat × Bool :=
  if s &&& versionSent ≠ 0 then (s, false)
  else if writeOk then (s ||| versionSent, true)
  else (s, false)

/-- `HandleVersion` (source lines 292-302), projected to the handshake
bits; the version payload and `lastBlockIndex` fields do not affect the
bit logic. -/
def HandleVersion (s : Nat) : Nat × Bool :=
  if s &&& versionReceived ≠ 0 then (s, false)
  else (s ||| versionReceived, true)

/-- `SendVersionAck` (source lines 305-322). -/
def SendVersionAck (writeOk : Bool) (s : Nat) : Nat × Bool :=
  if s &&& versionReceived = 0 then (s, false)
  else if s &&& versionSent = 0 then (s, false)
  else if s &&& verAckSent ≠ 0 then (s, false)
  else if writeOk then (s ||| verAckSent, true)
  else (s, false)

/-- `HandleVersionAck` (source lines 326-340). -/
def HandleVersionAck (s : Nat) : Nat × Bool :=
  if s &&& versionSent = 0 then (s, false)
  else if s &&& versionReceived = 0 then (s, false)
  else if s &&& verAckReceived ≠ 0 then (s, false)
  else (s ||| verAckReceived, true)

set_option maxHeartbeats 1000000 in
set_option synthInstance.maxSize 4096 in
set_option synthInstance.maxHeartbeats 1000000 in
/-- C5 (confirmed): over the 16 possible bit states, `Handshaked` holds
iff all four stage bits are set; each handshake operation fails exactly
when its precondition over the bits is unmet, leaves the state unchanged
on failure (including a failed write), and on success sets exactly its
own bit; all operations stay within the 4-bit state space. -/
theorem C5_handshake_machine :
    ∀ s : Nat, s < 16 →
      (Handshaked s = true ↔
        (s.testBit 0 ∧ s.testBit 1 ∧ s.testBit 2 ∧ s.testBit 3)) ∧
      (∀ w : Bool,
        ((SendVersion w s).2 = false → (SendVersion w s).1 = s) ∧
        ((SendVersion w s).2 = true →
          (SendVersion w s).1 = s ||| versionSent ∧ ¬ s.testBit 0) ∧
        ((SendVersionAck w s).2 = false → (SendVersionAck w s).1 = s) ∧
        ((SendVersionAck w s).2 = true →
          (SendVersionAck w s).1 = s ||| verAckSent ∧
          s.testBit 0 ∧ s.testBit 1 ∧ ¬ s.testBit 2)) ∧
      ((SendVersion true s).2 = false ↔ s.testBit 0) ∧
      ((HandleVersion s).2 = false ↔ s.testBit 1) ∧
      ((HandleVersion s).2 = false → (HandleVersion s).1 = s) ∧
      ((HandleVersion s).2 = true →
        (HandleVersion s).1 = s ||| versionReceived ∧ ¬ s.testBit 1) ∧
      ((SendVersionAck true s).2 = false ↔
        (¬ s.testBit 1 ∨ ¬ s.testBit 0 ∨ s.testBit 2)) ∧
      ((HandleVersionAck s).2 = false ↔
        (¬ s.testBit 0 ∨ ¬ s.testBit 1 ∨ s.testBit 3)) ∧
      ((HandleVersionAck s).2 = false → (HandleVersionAck s).1 = s) ∧
      ((HandleVersionAck s).2 = true →
        (HandleVersionAck s).1 = s ||| verAckReceived ∧ ¬ s.testBit 3) ∧
      (SendVersion true s).1 < 16 ∧ (HandleVersion s).1 < 16 ∧
      (SendVersionAck true s).1 < 16 ∧ (HandleVersionAck s).1 < 16 := by
  decide

/-- Witness for C5: the all-bits-set state 15 is handshaked. -/
theorem C5_handshake_machine_witness : Handshaked 15 = true :=
  (C5_handshake_machine 15 (by decide)).1.mpr (by decide)

/-- The fields of `TCPPeer` touched by `HandlePong`: the outstanding
ping counter, whether a ping timer is armed (`pingTimer != nil`), and
the last block index. -/
structure PongState where
  pingSent : Int
  pingTimer : Bool
  lastBlockIndex : Nat
deriving DecidableEq

inductive PongErr
  | pingPong
  | unexpectedPong
deriving DecidableEq

/-- `HandlePong` (source lines 406-419).  `stopOk` is the value of
`pingTimer.Stop()` when the timer is armed: `false` means the timer
already fired (and its callback disconnects with the ping/pong error);
`pongIdx` is `pong.LastBlockIndex`. -/
def HandlePong (st : PongState) (stopOk : Bool) (pongIdx : Nat) :
    PongState × Option PongErr :=
  if st.pingTimer && !stopOk then (st, some PongErr.pingPong)
  else
    let st1 : PongState :=
      { st with
          pingTimer := false
          pingSent := st.pingSent - 1 }
    if st1.pingSent < 0 then (st1, some PongErr.unexpectedPong)
    else ({ st1 with lastBlockIndex := pongIdx }, none)

/-- C6 (confirmed): `HandlePong` returns the ping/pong timeout error
exactly when an armed timer failed to stop, leaving the state unchanged;
otherwise it disarms the timer and decrements the counter, returning the
unexpected-pong error exactly when the counter becomes negative, and on
success it also records the pong's block index. -/
theorem C6_handlePong (st : PongState) (stopOk : Bool) (pongIdx : Nat) :
    ((HandlePong st stopOk pongIdx).2 = some PongErr.pingPong ↔
      (st.pingTimer = true ∧ stopOk = false)) ∧
    ((HandlePong st stopOk pongIdx).2 = some PongErr.pingPong →
      (HandlePong st stopOk pongIdx).1 = st) ∧
    (¬ (st.pingTimer = true ∧ stopOk = false) →
      (HandlePong st stopOk pongIdx).1.pingSent = st.pingSent - 1 ∧
      (HandlePong st stopOk pongIdx).1.pingTimer = false) ∧
    ((HandlePong st stopOk pongIdx).2 = some PongErr.unexpectedPong ↔
      (¬ (st.pingTimer = true ∧ stopOk = false) ∧ st.pingSent - 1 < 0)) ∧
    ((HandlePong st stopOk pongIdx).2 = none ↔
      (¬ (st.pingTimer = true ∧ stopOk = false) ∧ 0 ≤ st.pingSent - 1)) ∧
    ((HandlePong st stopOk pongIdx).2 = none →
      (HandlePong st stopOk pongIdx).1.lastBlockIndex = pongIdx) ∧
    ((HandlePong st stopOk pongIdx).2 ≠ none →
      (HandlePong st stopOk pongIdx).1.lastBlockIndex = st.lastBlockIndex) := by
  rcases st with ⟨ps, pt, lbi⟩
  cases pt <;> cases stopOk <;>
    simp [HandlePong] <;> split_ifs <;> simp_all

/-- Witness for C6: an armed timer that fails to stop yields the
ping/pong timeout error. -/
theorem C6_handlePong_witness :
    (HandlePong ⟨1, true, 0⟩ false 7).2 = some PongErr.pingPong :=
  (C6_handlePong ⟨1, true, 0⟩ false 7).1.mpr (by decide)

/-- Queue capacities (source lines 24-26). -/
def requestQueueSize : Nat := 32

def p2pMsgQueueSize : Nat := 16

def hpRequestQueueSize : Nat := 4

/-- The fields of `TCPPeer` touched by the enqueue operations: the
handshake bit field, whether the `done` channel is closed, and the
pending contents of the three buffered send queues (messages are opaque
byte strings). -/
structure TCPPeerState where
  handShake : Nat
  done : Bool
  sendQ : List (List Nat)
  p2pSendQ : List (List Nat)
  hpSendQ : List (List Nat)
deriving DecidableEq

inductive PutResult
  | ok
  | errStateMismatch
  | errGone
  | blocked
deriving DecidableEq

/-- `putPacketIntoQueue` (source lines 78-88) on one queue.  The select
has two cases: the queue send is ready iff the buffered channel has a
free slot, and the done receive is ready iff `done` is closed; when both
are ready Go picks one pseudo-randomly, which `pickDone` resolves.  When
neither is ready the goroutine blocks, modelled by `PutResult.blocked`. -/
def putPacketIntoQueue (cap : Nat) (pickDone : Bool) (st : TCPPeerState)
    (q : List (List Nat)) (msg : List Nat) : List (List Nat) × PutResult :=
  if ¬ Handshaked st.handShake then (q, PutResult.errStateMismatch)
  else if st.done && (pickDone || decide (cap ≤ q.length)) then
    (q, PutResult.errGone)
  else if q.length < cap then (q ++ [msg], PutResult.ok)
  else (q, PutResult.blocked)

/-- `EnqueuePacket` (source lines 91-93). -/
def EnqueuePacket (pickDone : Bool) (st : TCPPeerState) (msg : List Nat) :
    TCPPeerState × PutResult :=
  let r := putPacketIntoQueue requestQueueSize pickDone st st.sendQ msg
  ({ st with sendQ := r.1 }, r.2)

/-- `EnqueueMessage` (source lines 107-109): `putMsgIntoQueue` first
serializes the message; messages are modelled as already-serialized
bytes, so it coincides with `EnqueuePacket`. -/
def EnqueueMessage (pickDone : Bool) (st : TCPPeerState) (msg : List Nat) :
    TCPPeerState × PutResult :=
  EnqueuePacket pickDone st msg

/-- `EnqueueP2PPacket` (source lines 112-114). -/
def EnqueueP2PPacket (pickDone : Bool) (st : TCPPeerState) (msg : List Nat) :
    TCPPeerState × PutResult :=
  let r := putPacketIntoQueue p2pMsgQueueSize pickDone st st.p2pSendQ msg
  ({ st with p2pSendQ := r.1 }, r.2)

/-- `EnqueueP2PMessage` (source lines 117-119). -/
def EnqueueP2PMessage (pickDone : Bool) (st : TCPPeerState) (msg : List Nat) :
    TCPPeerState × PutResult :=
  EnqueueP2PPacket pickDone st msg

/-- `EnqueueHPPacket` (source lines 123-125). -/
def EnqueueHPPacket (pickDone : Bool) (st : TCPPeerState) (msg : List Nat) :
    TCPPeerState × PutResult :=
  let r := putPacketIntoQueue hpRequestQueueSize pickDone st st.hpSendQ msg
  ({ st with hpSendQ := r.1 }, r.2)

/-- C10 (confirmed): before the handshake completes every enqueue
operation fails with the state-mismatch error and leaves all queues
unchanged; once handshaked, an operation fails with the peer-gone error
exactly when the done signal has fired and the select resolves to it
(which it must when the queue is full), leaving the state unchanged, and
otherwise appends the message to its own queue whenever there is room;
the message variants coincide with the packet variants. -/
theorem C10_enqueue_ops (st : TCPPeerState) (msg : List Nat) (pickDone : Bool) :
    (Handshaked st.handShake = false →
      EnqueuePacket pickDone st msg = (st, PutResult.errStateMismatch) ∧
      EnqueueMessage pickDone st msg = (st, PutResult.errStateMismatch) ∧
      EnqueueP2PPacket pickDone st msg = (st, PutResult.errStateMismatch) ∧
      EnqueueP2PMessage pickDone st msg = (st, PutResult.errStateMismatch) ∧
      EnqueueHPPacket pickDone st msg = (st, PutResult.errStateMismatch)) ∧
    (Handshaked st.handShake = true →
      ((EnqueuePacket pickDone st msg).2 = PutResult.errGone ↔
        st.done = true ∧
          (pickDone = true ∨ requestQueueSize ≤ st.sendQ.length)) ∧
      ((EnqueuePacket pickDone st msg).2 = PutResult.errGone →
        (EnqueuePacket pickDone st msg).1 = st) ∧
      (st.done = false → st.sendQ.length < requestQueueSize →
        EnqueuePacket pickDone st msg =
          ({ st with sendQ := st.sendQ ++ [msg] }, PutResult.ok)) ∧
      ((EnqueueP2PPacket pickDone st msg).2 = PutResult.errGone ↔
        st.done = true ∧
          (pickDone = true ∨ p2pMsgQueueSize ≤ st.p2pSendQ.length)) ∧
      ((EnqueueP2PPacket pickDone st msg).2 = PutResult.errGone →
        (EnqueueP2PPacket pickDone st msg).1 = st) ∧
      (st.done = false → st.p2pSendQ.length < p2pMsgQueueSize →
        EnqueueP2PPacket pickDone st msg =
          ({ st with p2pSendQ := st.p2pSendQ ++ [msg] }, PutResult.ok)) ∧
      ((EnqueueHPPacket pickDone st msg).2 = PutResult.errGone ↔
        st.done = true ∧
          (pickDone = true ∨ hpRequestQueueSize ≤ st.hpSendQ.length)) ∧
      ((EnqueueHPPacket pickDone st msg).2 = PutResult.errGone →
        (EnqueueHPPacket pickDone st msg).1 = st) ∧
      (st.done = false → st.hpSendQ.length < hpRequestQueueSize →
        EnqueueHPPacket pickDone st msg =
          ({ st with hpSendQ := st.hpSendQ ++ [msg] }, PutResult.ok))) ∧
    EnqueueMessage pickDone st msg = EnqueuePacket pickDone st msg ∧
    EnqueueP2PMessage pickDone st msg = EnqueueP2PPacket pickDone st msg := by
  rcases st with ⟨hs, dn, q1, q2, q3⟩
  cases dn <;> cases pickDone <;>
    simp [EnqueuePacket, EnqueueMessage, EnqueueP2PPacket, EnqueueP2PMessage,
      EnqueueHPPacket, putPacketIntoQueue] <;>
    split_ifs <;> simp_all

/-- A handshaked, live peer state with empty queues. -/
def c10St : TCPPeerState :=
  { handShake := 15
    done := false
    sendQ := []
    p2pSendQ := []
    hpSendQ := [] }

/-- Witness for C10: on the handshaked live state an enqueue appends the
message to the send queue and succeeds. -/
theorem C10_enqueue_ops_witness :
    EnqueuePacket false c10St [1, 2] =
      ({ c10St with sendQ := c10St.sendQ ++ [[1, 2]] }, PutResult.ok) :=
  ((C10_enqueue_ops c10St [1, 2] false).2.1 (by decide)).2.2.1 (by decide)
    (by decide)

/-! ## §9 DAO transaction lookup (src/pkg/core/dao/cacheddao.go)

The underlying KV store is an association list from byte-string keys to
byte-string values; `storeGet` is `Store.Get` with `none` standing for
`ErrKeyNotFound`. -/

def storeGet (store : List (List Nat × List Nat)) (key : List Nat) :
    Option (List Nat) :=
  match store with
  | [] => none
  | kv :: rest => if kv.1 = key then some kv.2 else storeGet rest key

/-- Modelled from the spec: the single-byte key prefix reserved for
DataTransaction entries; the exact byte is implementation-defined
(spec §4.3), 2 is used here. -/
def DataTransaction : Nat := 2

/-- Modelled from the spec: the version byte marking a placeholder
(dummy) transaction entry; the exact value is implementation-defined,
255 is used here. -/
def DummyVersion : Nat := 255

/-- Little-endian u32 read of the first four bytes (`ReadU32LE`). -/
def le32 (b : List Nat) : Nat :=
  b.getD 0 0 + 256 * b.getD 1 0 + 65536 * b.getD 2 0 + 16777216 * b.getD 3 0

inductive GetTxResult
  | notFound
  | badBytes
  | decodeErr
  | found (height : Nat) (txBytes : List Nat)
deriving DecidableEq

/-- `GetTransaction` (source lines 782-806).  `decodeTx` abstracts the
binary transaction decoder; a `Get` failure and the dummy branch both
surface `storage.ErrKeyNotFound`, mapped to `notFound`. -/
def GetTransaction (decodeTx : List Nat → Option (List Nat))
    (store : List (List Nat × List Nat)) (hash : List Nat) : GetTxResult :=
  match storeGet store (DataTransaction :: hash) with
  | none => GetTxResult.notFound
  | some b =>
    if b.length < 5 then GetTxResult.badBytes
    else if b.getD 4 0 = DummyVersion then GetTxResult.notFound
    else
      match decodeTx b with
      | none => GetTxResult.decodeErr
      | some tx => GetTxResult.found (le32 b) tx

inductive HasTxResult
  | nil
  | hasConflicts
  | alreadyExists
deriving DecidableEq

/-- `HasTransaction` (source lines 850-863): a `Get` error and a short
value both answer `nil`; a dummy version byte at offset 4 answers
`ErrHasConflicts`; anything else answers `ErrAlreadyExists`. -/
def HasTransaction (store : List (List Nat × List Nat)) (hash : List Nat) :
    HasTxResult :=
  match storeGet store (DataTransaction :: hash) with
  | none => HasTxResult.nil
  | some b =>
    if b.length < 5 then HasTxResult.nil
    else if b.getD 4 0 = DummyVersion then HasTxResult.hasConflicts
    else HasTxResult.alreadyExists

/-- C7 (confirmed): for a stored DataTransaction value of at least five
bytes, a dummy version byte at offset 4 makes `GetTransaction` report
`NotFound` (not the transaction, not another error) and `HasTransaction`
report `HasConflicts`; a non-dummy version byte makes `HasTransaction`
report `AlreadyExists`; and for an absent hash `HasTransaction` reports
nil. -/
theorem C7_dummy_semantics (decodeTx : List Nat → Option (List Nat))
    (store : List (List Nat × List Nat)) (hash b : List Nat)
    (hstored : storeGet store (DataTransaction :: hash) = some b)
    (hlen : 5 ≤ b.length) :
    (b.getD 4 0 = DummyVersion →
      GetTransaction decodeTx store hash = GetTxResult.notFound ∧
      HasTransaction store hash = HasTxResult.hasConflicts) ∧
    (b.getD 4 0 ≠ DummyVersion →
      HasTransaction store hash = HasTxResult.alreadyExists) ∧
    (∀ h2, storeGet store (DataTransaction :: h2) = none →
      HasTransaction store h2 = HasTxResult.nil) := by
  have hshort : ¬ (b.length < 5) := by omega
  refine ⟨?_, ?_, ?_⟩
  · intro hdummy
    constructor
    · unfold GetTransaction
      rw [hstored]
      simp only [if_neg hshort, if_pos hdummy]
    · unfold HasTransaction
      rw [hstored]
      simp only [if_neg hshort, if_pos hdummy]
  · intro hdummy
    unfold HasTransaction
    rw [hstored]
    simp only [if_neg hshort, if_neg hdummy]
  · intro h2 habsent
    unfold HasTransaction
    rw [habsent]

/-- A store holding one dummy entry under hash `[9]`: height 0 followed
by the dummy version byte. -/
def c7Store : List (List Nat × List Nat) := [([2, 9], [0, 0, 0, 0, 255])]

/-- Witness for C7: the dummy entry is invisible to `GetTransaction`
and flagged by `HasTransaction`. -/
theorem C7_dummy_semantics_witness :
    GetTransaction (fun xs => some xs) c7Store [9] = GetTxResult.notFound ∧
    HasTransaction c7Store [9] = HasTxResult.hasConflicts :=
  (C7_dummy_semantics (fun xs => some xs) c7Store [9] [0, 0, 0, 0, 255]
    (by decide) (by decide)).1 (by decide)

/-! ## §10 Merkle-Patricia trie proofs (src/pkg/core/mpt, state_root.go)

The MPT node types, their serialization, `DoubleSha256` content
addressing, `toNibbles`, `splitPath` and `getWithPath` are not under
`src/`; they are modelled from spec §4.2.  `GetProof`/`getProof` and
`VerifyProof` are translated from the source.

Modelled from the spec: the hash of a non-empty node is the
double-SHA256 of its canonical serialization, which uniquely determines
the node (§4.2 hash invariants); hashing is therefore modelled as the
identity on node content: an `FNode` is both a fully-resolved node tree
and the "hash" addressing it.  A serialized node references its
children by hash, so decoding a stored node resolves exactly one level
(`FNode.decode` below). -/

/-- Modelled from the spec: a fully-resolved MPT node (leaf, extension,
branch with its children in order, or the empty node). -/
inductive FNode where
  | leaf (val : List Nat)
  | ext (key : List Nat) (next : FNode)
  | branch (children : List FNode)
  | empty

/-- Modelled from the spec: an in-memory, partially resolved MPT node:
the four node kinds plus `hashn`, a reference to a node by its hash
(a non-empty `HashNode`); the empty `HashNode` is `empty`. -/
inductive MNode where
  | leaf (val : List Nat)
  | ext (key : List Nat) (next : MNode)
  | branch (children : List MNode)
  | empty
  | hashn (h : FNode)

/-- The hash reference to a node: the empty node stays the empty
`HashNode`, anything else becomes a `hashn` reference. -/
def FNode.ref : FNode → MNode
  | FNode.empty => MNode.empty
  | FNode.leaf v => MNode.hashn (FNode.leaf v)
  | FNode.ext k n => MNode.hashn (FNode.ext k n)
  | FNode.branch cs => MNode.hashn (FNode.branch cs)

/-- Modelled from the spec: decoding a stored serialized node resolves
one level; children appear as hash references. -/
def FNode.decode : FNode → MNode
  | FNode.leaf v => MNode.leaf v
  | FNode.ext k n => MNode.ext k n.ref
  | FNode.branch cs => MNode.branch (cs.map FNode.ref)
  | FNode.empty => MNode.empty

mutual

/-- Serialization content of a partially resolved node: a `hashn`
reference stands for the node it addresses. -/
def MNode.flatten : MNode → FNode
  | MNode.leaf v => FNode.leaf v
  | MNode.ext k n => FNode.ext k n.flatten
  | MNode.branch cs => FNode.branch (flattenList cs)
  | MNode.empty => FNode.empty
  | MNode.hashn h => h

def flattenList : List MNode → List FNode
  | [] => []
  | c :: cs => c.flatten :: flattenList cs

end

mutual

/-- Node-tree size measure used for fuel bounds. -/
def FNode.fsize : FNode → Nat
  | FNode.leaf _ => 1
  | FNode.ext _ n => n.fsize + 2
  | FNode.branch cs => sizeList cs + 1
  | FNode.empty => 0

def sizeList : List FNode → Nat
  | [] => 0
  | c :: cs => c.fsize + 1 + sizeList cs

end

mutual

/-- Partially-resolved-node size measure: a hash reference weighs the
size of the addressed node plus one, so every descent step strictly
decreases the measure. -/
def MNode.msize : MNode → Nat
  | MNode.leaf _ => 1
  | MNode.ext _ n => n.msize + 1
  | MNode.branch cs => msizeList cs + 1
  | MNode.empty => 0
  | MNode.hashn h => h.fsize + 1

def msizeList : List MNode → Nat
  | [] => 0
  | c :: cs => c.msize + msizeList cs

end

mutual

/-- Boolean node equality. -/
def FNode.beq : FNode → FNode → Bool
  | FNode.leaf v, FNode.leaf w => v == w
  | FNode.ext k n, FNode.ext k2 n2 => k == k2 && FNode.beq n n2
  | FNode.branch cs, FNode.branch ds => beqList cs ds
  | FNode.empty, FNode.empty => true
  | _, _ => false

def beqList : List FNode → List FNode → Bool
  | [], [] => true
  | c :: cs, d :: ds => FNode.beq c d && beqList cs ds
  | _, _ => false

end

/-- Modelled from the spec: the nibble expansion of a byte key. -/
def toNibbles (key : List Nat) : List Nat :=
  key.flatMap (fun b => [b / 16, b % 16])

/-- Modelled from the spec: `splitPath` — the branch child index for a
path (the first nibble, or the terminal child 16 for the empty path). -/
def splitIdx (path : List Nat) : Nat :=
  match path with
  | [] => 16
  | i :: _ => i

/-- The remainder of the path after `splitIdx`. -/
def splitRest (path : List Nat) : List Nat :=
  match path with
  | [] => []
  | _ :: rest => rest

/-- `getFromStore` on the content-addressed store: the nodes are keyed
by their own hash, so looking up hash `h` returns `h` itself exactly
when it is a stored element. -/
def lookupStore (store : List FNode) (h : FNode) : Option FNode :=
  if store.any (fun x => FNode.beq x h) then some h else none

/-- Modelled from the spec: `getWithPath` — the nibble descent used by
`Get` and `VerifyProof`: standard radix descent resolving hash
references from the store as encountered; succeeds iff every reference
resolves and the descent ends at a leaf with the path exhausted.  The
fuel argument makes the recursion structural; `MNode.msize` strictly
decreases at every step, so any fuel above it is sufficient. -/
def getWithPath (store : List FNode) : Nat → MNode → List Nat → Option (List Nat)
  | 0, _, _ => none
  | fuel + 1, curr, path =>
    match curr with
    | MNode.leaf v => if path = [] then some v else none
    | MNode.ext k n =>
      if path.take k.length = k then getWithPath store fuel n (path.drop k.length)
      else none
    | MNode.branch cs =>
      getWithPath store fuel (cs.getD (splitIdx path) MNode.empty) (splitRest path)
    | MNode.empty => none
    | MNode.hashn h =>
      match lookupStore store h with
      | none => none
      | some f => getWithPath store fuel f.decode path

/-- `getProof` (source lines 66-88): collects the serialization of
every node on the descent path, resolving hash references from the
trie's backing store, and returns the partially-resolved node together
with the extended proof list. -/
def getProofF (store : List FNode) :
    Nat → MNode → List Nat → List FNode → Option (MNode × List FNode)
  | 0, _, _, _ => none
  | fuel + 1, curr, path, proofs =>
    match curr with
    | MNode.leaf v =>
      if path = [] then some (MNode.leaf v, proofs ++ [FNode.leaf v])
      else none
    | MNode.ext k n =>
      if path.take k.length = k then
        match getProofF store fuel n (path.drop k.length)
          (proofs ++ [MNode.flatten (MNode.ext k n)]) with
        | none => none
        | some (r, ps) => some (MNode.ext k r, ps)
      else none
    | MNode.branch cs =>
      match getProofF store fuel (cs.getD (splitIdx path) MNode.empty)
        (splitRest path) (proofs ++ [MNode.flatten (MNode.branch cs)]) with
      | none => none
      | some (r, ps) => some (MNode.branch (cs.set (splitIdx path) r), ps)
    | MNode.empty => none
    | MNode.hashn h =>
      match lookupStore store h with
      | none => none
      | some f => getProofF store fuel f.decode path proofs

/-- `GetProof` (source lines 55-65): nibble-expands the key and collects
the proof starting from the root with an empty list. -/
def GetProof (store : List FNode) (root : MNode) (key : List Nat) :
    Option (MNode × List FNode) :=
  getProofF store (root.msize + 1) root (toNibbles key) []

/-- `VerifyProof` (source lines 92-102): stores every proof element
under its own double-SHA256 (in the content-addressed model the store is
the proof list itself), then runs the same nibble descent from a hash
reference to the root. -/
def VerifyProof (rootHash : FNode) (key : List Nat) (proofs : List FNode) :
    Option (List Nat) :=
  getWithPath proofs (rootHash.ref.msize + 1) rootHash.ref (toNibbles key)

mutual

theorem FNode.beq_iff : ∀ a b : FNode, FNode.beq a b = true ↔ a = b
  | FNode.leaf v, FNode.leaf w => by simp [FNode.beq]
  | FNode.leaf v, FNode.ext k n => by simp [FNode.beq]
  | FNode.leaf v, FNode.branch cs => by simp [FNode.beq]
  | FNode.leaf v, FNode.empty => by simp [FNode.beq]
  | FNode.ext k n, FNode.leaf w => by simp [FNode.beq]
  | FNode.ext k n, FNode.ext k2 n2 => by
    simp [FNode.beq, FNode.beq_iff n n2]
  | FNode.ext k n, FNode.branch cs => by simp [FNode.beq]
  | FNode.ext k n, FNode.empty => by simp [FNode.beq]
  | FNode.branch cs, FNode.leaf w => by simp [FNode.beq]
  | FNode.branch cs, FNode.ext k n => by simp [FNode.beq]
  | FNode.branch cs, FNode.branch ds => by
    simp [FNode.beq, beqList_iff cs ds]
  | FNode.branch cs, FNode.empty => by simp [FNode.beq]
  | FNode.empty, FNode.leaf w => by simp [FNode.beq]
  | FNode.empty, FNode.ext k n => by simp [FNode.beq]
  | FNode.empty, FNode.branch cs => by simp [FNode.beq]
  | FNode.empty, FNode.empty => by simp [FNode.beq]

theorem beqList_iff : ∀ xs ys : List FNode, beqList xs ys = true ↔ xs = ys
  | [], [] => by simp [beqList]
  | [], y :: ys => by simp [beqList]
  | x :: xs, [] => by simp [beqList]
  | x :: xs, y :: ys => by
    simp [beqList, FNode.beq_iff x y, beqList_iff xs ys]

end

theorem lookupStore_eq_some (store : List FNode) (h : FNode) :
    lookupStore store h = some h ↔ h ∈ store := by
  unfold lookupStore
  by_cases hc : store.any (fun x => FNode.beq x h)
  · rw [if_pos hc]
    simp only [true_iff]
    rcases List.any_eq_true.mp hc with ⟨x, hx, hbeq⟩
    rw [FNode.beq_iff x h] at hbeq
    exact hbeq ▸ hx
  · rw [if_neg hc]
    constructor
    · intro hh
      exact Option.noConfusion hh
    · intro hmem
      refine absurd ?_ hc
      refine List.any_eq_true.mpr ⟨h, hmem, ?_⟩
      exact (FNode.beq_iff h h).mpr rfl

theorem lookupStore_cases (store : List FNode) (h : FNode) :
    lookupStore store h = some h ∨ lookupStore store h = none := by
  unfold lookupStore
  by_cases hc : store.any (fun x => FNode.beq x h)
  · exact Or.inl (if_pos hc)
  · exact Or.inr (if_neg hc)

theorem flatten_ref : ∀ n : FNode, (FNode.ref n).flatten = n := by
  intro n
  cases n <;> rfl

theorem flatten_decode : ∀ h : FNode, (FNode.decode h).flatten = h := by
  intro h
  cases h with
  | leaf v => rfl
  | ext k n => show FNode.ext k (FNode.ref n).flatten = FNode.ext k n
               rw [flatten_ref]
  | branch cs =>
    show FNode.branch (flattenList (cs.map FNode.ref)) = FNode.branch cs
    congr 1
    induction cs with
    | nil => rfl
    | cons c rest ih =>
      show (FNode.ref c).flatten :: flattenList (rest.map FNode.ref) = c :: rest
      rw [flatten_ref, ih]
  | empty => rfl

theorem msize_ref_le (c : FNode) : (FNode.ref c).msize ≤ c.fsize + 1 := by
  cases c <;> simp [FNode.ref, MNode.msize]

theorem msizeList_map_ref : ∀ cs : List FNode,
    msizeList (cs.map FNode.ref) ≤ sizeList cs := by
  intro cs
  induction cs with
  | nil => simp [msizeList, sizeList]
  | cons c rest ih =>
    show (FNode.ref c).msize + msizeList (rest.map FNode.ref) ≤
      c.fsize + 1 + sizeList rest
    have := msize_ref_le c
    omega

theorem msize_decode_le (h : FNode) : (FNode.decode h).msize ≤ h.fsize := by
  cases h with
  | leaf v => simp [FNode.decode, MNode.msize, FNode.fsize]
  | ext k n =>
    show (FNode.ref n).msize + 1 ≤ n.fsize + 2
    have := msize_ref_le n
    omega
  | branch cs =>
    show msizeList (cs.map FNode.ref) + 1 ≤ sizeList cs + 1
    have := msizeList_map_ref cs
    omega
  | empty => simp [FNode.decode, MNode.msize, FNode.fsize]

theorem msize_getD_le : ∀ (cs : List MNode) (i : Nat),
    (cs.getD i MNode.empty).msize ≤ msizeList cs := by
  intro cs
  induction cs with
  | nil => intro i; simp [MNode.msize, msizeList]
  | cons c rest ih =>
    intro i
    cases i with
    | zero =>
      show c.msize ≤ c.msize + msizeList rest
      omega
    | succ j =>
      show (rest.getD j MNode.empty).msize ≤ c.msize + msizeList rest
      have := ih j
      omega

theorem getD_map_ref : ∀ (xs : List FNode) (i : Nat),
    (xs.map FNode.ref).getD i MNode.empty = FNode.ref (xs.getD i FNode.empty) := by
  intro xs
  induction xs with
  | nil => intro i; rfl
  | cons x rest ih =>
    intro i
    cases i with
    | zero => rfl
    | succ j => exact ih j

theorem getD_flattenList : ∀ (cs : List MNode) (i : Nat),
    (flattenList cs).getD i FNode.empty = (cs.getD i MNode.empty).flatten := by
  intro cs
  induction cs with
  | nil => intro i; rfl
  | cons c rest ih =>
    intro i
    cases i with
    | zero => rfl
    | succ j => exact ih j

/-- The spec's success condition for `VerifyProof` (claim C4(b)): a
derivation that every hash reference encountered during the nibble
descent resolves to a supplied proof element and the descent ends at a
leaf, yielding value `v`. -/
inductive RefDescent (pstore : List FNode) : MNode → List Nat → List Nat → Prop
  | leaf (v : List Nat) : RefDescent pstore (MNode.leaf v) [] v
  | ext (k : List Nat) (n : MNode) (path : List Nat) (v : List Nat)
      (hpre : path.take k.length = k)
      (h : RefDescent pstore n (path.drop k.length) v) :
      RefDescent pstore (MNode.ext k n) path v
  | branch (cs : List MNode) (path : List Nat) (v : List Nat)
      (h : RefDescent pstore (cs.getD (splitIdx path) MNode.empty)
        (splitRest path) v) :
      RefDescent pstore (MNode.branch cs) path v
  | hashn (h : FNode) (path : List Nat) (v : List Nat)
      (hres : h ∈ pstore) (hrec : RefDescent pstore (FNode.decode h) path v) :
      RefDescent pstore (MNode.hashn h) path v

theorem getWithPath_sound (pstore : List FNode) :
    ∀ (fuel : Nat) (n : MNode) (path v : List Nat),
      getWithPath pstore fuel n path = some v → RefDescent pstore n path v := by
  intro fuel
  induction fuel with
  | zero => intro n path v h; exact Option.noConfusion h
  | succ f ih =>
    intro n path v h
    cases n with
    | leaf w =>
      simp only [getWithPath] at h
      by_cases hp : path = []
      · rw [if_pos hp] at h
        rw [hp]
        rw [Option.some.injEq] at h
        rw [← h]
        exact RefDescent.leaf w
      · rw [if_neg hp] at h
        exact Option.noConfusion h
    | ext k m =>
      simp only [getWithPath] at h
      by_cases hp : path.take k.length = k
      · rw [if_pos hp] at h
        exact RefDescent.ext k m path v hp (ih _ _ _ h)
      · rw [if_neg hp] at h
        exact Option.noConfusion h
    | branch cs =>
      simp only [getWithPath] at h
      exact RefDescent.branch cs path v (ih _ _ _ h)
    | empty =>
      simp only [getWithPath] at h
      exact Option.noConfusion h
    | hashn hn =>
      simp only [getWithPath] at h
      rcases lookupStore_cases pstore hn with hc | hc
      · rw [hc] at h
        exact RefDescent.hashn hn path v ((lookupStore_eq_some pstore hn).mp hc)
          (ih _ _ _ h)
      · rw [hc] at h
        exact Option.noConfusion h

theorem RefDescent_complete (pstore : List FNode) :
    ∀ {n : MNode} {path v : List Nat}, RefDescent pstore n path v →
      ∀ fuel, n.msize < fuel → getWithPath pstore fuel n path = some v := by
  intro n path v hd
  induction hd with
  | leaf w =>
    intro fuel hf
    match fuel, hf with
    | f + 1, _ => simp [getWithPath]
  | ext k m path v hpre h ih =>
    intro fuel hf
    match fuel, hf with
    | f + 1, hf =>
      have hm : m.msize < f := by
        have : (MNode.ext k m).msize = m.msize + 1 := rfl
        omega
      simp only [getWithPath, if_pos hpre]
      exact ih f hm
  | branch cs path v h ih =>
    intro fuel hf
    match fuel, hf with
    | f + 1, hf =>
      have hm : (cs.getD (splitIdx path) MNode.empty).msize < f := by
        have h1 := msize_getD_le cs (splitIdx path)
        have h2 : (MNode.branch cs).msize = msizeList cs + 1 := rfl
        omega
      simp only [getWithPath]
      exact ih f hm
  | hashn hn path v hres hrec ih =>
    intro fuel hf
    match fuel, hf with
    | f + 1, hf =>
      have hm : (FNode.decode hn).msize < f := by
        have h1 := msize_decode_le hn
        have h2 : (MNode.hashn hn).msize = hn.fsize + 1 := rfl
        omega
      simp only [getWithPath]
      rw [(lookupStore_eq_some pstore hn).mpr hres]
      exact ih f hm

theorem getProof_sim (store : List FNode) :
    ∀ (fuel : Nat) (m : MNode) (path : List Nat) (acc : List FNode)
      (r : MNode) (ps : List FNode),
      getProofF store fuel m path acc = some (r, ps) →
      ∃ tail v,
        ps = acc ++ tail ∧
        getWithPath store fuel m path = some v ∧
        ∀ pstore : List FNode, (∀ x ∈ tail, x ∈ pstore) →
          RefDescent pstore (FNode.ref (MNode.flatten m)) path v := by
  intro fuel
  induction fuel with
  | zero => intro m path acc r ps h; exact Option.noConfusion h
  | succ f ih =>
    intro m path acc r ps h
    cases m with
    | leaf w =>
      simp only [getProofF] at h
      by_cases hp : path = []
      · rw [if_pos hp] at h
        rw [Option.some.injEq, Prod.mk.injEq] at h
        refine ⟨[FNode.leaf w], w, h.2.symm, ?_, ?_⟩
        · rw [hp]
          simp [getWithPath]
        · intro pstore hsub
          rw [hp]
          refine RefDescent.hashn (FNode.leaf w) [] w ?_ (RefDescent.leaf w)
          exact hsub _ (List.mem_singleton.mpr rfl)
      · rw [if_neg hp] at h
        exact Option.noConfusion h
    | ext k m2 =>
      simp only [getProofF] at h
      by_cases hp : path.take k.length = k
      · rw [if_pos hp] at h
        rcases hrec : getProofF store f m2 (path.drop k.length)
            (acc ++ [MNode.flatten (MNode.ext k m2)]) with _ | rp
        · rw [hrec] at h
          exact Option.noConfusion h
        · rw [hrec] at h
          rcases rp with ⟨r2, ps2⟩
          rw [Option.some.injEq, Prod.mk.injEq] at h
          obtain ⟨tail2, v, hps2, htrie, hrd⟩ := ih m2 (path.drop k.length)
            (acc ++ [MNode.flatten (MNode.ext k m2)]) r2 ps2 hrec
          refine ⟨MNode.flatten (MNode.ext k m2) :: tail2, v, ?_, ?_, ?_⟩
          · rw [← h.2, hps2, List.append_assoc]
            rfl
          · simp only [getWithPath, if_pos hp]
            exact htrie
          · intro pstore hsub
            show RefDescent pstore
              (FNode.ref (FNode.ext k (MNode.flatten m2))) path v
            refine RefDescent.hashn _ path v
              (hsub _ (List.mem_cons_self _ _)) ?_
            show RefDescent pstore
              (MNode.ext k (FNode.ref (MNode.flatten m2))) path v
            refine RefDescent.ext k _ path v hp ?_
            exact hrd pstore (fun x hx => hsub x (List.mem_cons_of_mem _ hx))
      · rw [if_neg hp] at h
        exact Option.noConfusion h
    | branch cs =>
      simp only [getProofF] at h
      rcases hrec : getProofF store f (cs.getD (splitIdx path) MNode.empty)
          (splitRest path) (acc ++ [MNode.flatten (MNode.branch cs)]) with _ | rp
      · rw [hrec] at h
        exact Option.noConfusion h
      · rw [hrec] at h
        rcases rp with ⟨r2, ps2⟩
        rw [Option.some.injEq, Prod.mk.injEq] at h
        obtain ⟨tail2, v, hps2, htrie, hrd⟩ := ih _ (splitRest path)
          (acc ++ [MNode.flatten (MNode.branch cs)]) r2 ps2 hrec
        refine ⟨MNode.flatten (MNode.branch cs) :: tail2, v, ?_, ?_, ?_⟩
        · rw [← h.2, hps2, List.append_assoc]
          rfl
        · simp only [getWithPath]
          exact htrie
        · intro pstore hsub
          show RefDescent pstore
            (FNode.ref (FNode.branch (flattenList cs))) path v
          refine RefDescent.hashn _ path v
            (hsub _ (List.mem_cons_self _ _)) ?_
          show RefDescent pstore
            (MNode.branch ((flattenList cs).map FNode.ref)) path v
          refine RefDescent.branch _ path v ?_
          rw [getD_map_ref, getD_flattenList]
          exact hrd pstore (fun x hx => hsub x (List.mem_cons_of_mem _ hx))
    | empty =>
      simp only [getProofF] at h
      exact Option.noConfusion h
    | hashn hn =>
      simp only [getProofF] at h
      rcases lookupStore_cases store hn with hc | hc
      · rw [hc] at h
        obtain ⟨tail2, v, hps2, htrie, hrd⟩ := ih (FNode.decode hn) path acc r ps h
        refine ⟨tail2, v, hps2, ?_, ?_⟩
        · simp only [getWithPath]
          rw [hc]
          exact htrie
        · intro pstore hsub
          have := hrd pstore hsub
          rw [flatten_decode] at this
          exact this
      · rw [hc] at h
        exact Option.noConfusion h

/-- C4 (confirmed): (a) whenever `GetProof` succeeds on a trie, the
nibble descent on the trie yields a value `v`, and `VerifyProof` on the
root's hash with the collected proof elements returns exactly `v`;
(b) `VerifyProof` returns a value iff every hash reference encountered
during the nibble descent from the root hash resolves to a supplied
proof element (addressed by its own hash) and the descent ends at a
leaf (the `RefDescent` derivation). -/
theorem C4_trie_proofs (store : List FNode) (root : MNode) (key : List Nat)
    (r : MNode) (proofs : List FNode)
    (hp : GetProof store root key = some (r, proofs)) :
    (∃ v, getWithPath store (root.msize + 1) root (toNibbles key) = some v ∧
      VerifyProof root.flatten key proofs = some v) ∧
    (∀ (rh : FNode) (k2 v2 : List Nat) (ps2 : List FNode),
      VerifyProof rh k2 ps2 = some v2 ↔
        RefDescent ps2 (FNode.ref rh) (toNibbles k2) v2) := by
  constructor
  · unfold GetProof at hp
    obtain ⟨tail, v, hps, htrie, hrd⟩ := getProof_sim store (root.msize + 1)
      root (toNibbles key) [] r proofs hp
    rw [List.nil_append] at hps
    subst hps
    refine ⟨v, htrie, ?_⟩
    unfold VerifyProof
    exact RefDescent_complete proofs (hrd proofs (fun x hx => hx)) _
      (Nat.lt_succ_self _)
  · intro rh k2 v2 ps2
    constructor
    · intro hv
      unfold VerifyProof at hv
      exact getWithPath_sound ps2 _ _ _ _ hv
    · intro hrd2
      unfold VerifyProof
      exact RefDescent_complete ps2 hrd2 _ (Nat.lt_succ_self _)

/-- A one-extension-one-leaf trie, fully in memory. -/
def c4Root : MNode := MNode.ext [1, 2] (MNode.leaf [77])

/-- The proof `GetProof` collects for key `0x12` in `c4Root`. -/
def c4Proofs : List FNode :=
  [FNode.ext [1, 2] (FNode.leaf [77]), FNode.leaf [77]]

/-- The node `GetProof` returns for key `0x12` in `c4Root`. -/
def c4R : MNode := MNode.ext [1, 2] (MNode.leaf [77])

/-- Witness for C4: on the concrete trie the proof for key `0x12`
verifies to the stored value. -/
theorem C4_trie_proofs_witness :
    ∃ v, getWithPath [] (c4Root.msize + 1) c4Root (toNibbles [18]) = some v ∧
      VerifyProof c4Root.flatten [18] c4Proofs = some v :=
  (C4_trie_proofs [] c4Root [18] c4R c4Proofs rfl).1
